import Mathlib

/-!
Verification of the patch-application / rollback subsystem of the APR
(automated program repair) tool, `Scripts/apr/patch_applier.py`.

The Python module is shallowly embedded below:

* the filesystem is modeled as an association list from repository-relative
  POSIX path strings to file contents (regular files only; directories and
  symbolic links are outside the model);
* `pathlib` path resolution is modeled relative to the repository root; the
  root's absolute location is not part of the model, so resolutions that
  climb above the root (or absolute inputs) are modeled as the `ValueError`
  that `Path.relative_to` raises;
* `fnmatch` and the parts of `difflib` used by the module (`ndiff`, built on
  `SequenceMatcher` and `Differ`) are embedded following the CPython 3.11
  sources; floating-point similarity ratios are modeled as exact rationals;
* fallible operations return `Option`: `none` models an uncaught Python
  exception propagating out of the function.

All recursive definitions are structural (using explicit fuel where the
Python loop is not structural), so every definition evaluates by kernel
reduction.
-/

namespace APR

/-! ## Filesystem model -/

/-- A filesystem: association list from path to file content.
Lookup takes the first matching entry; `fsWrite`/`fsUnlink` keep at most one
entry per path, matching a real filesystem. -/
abbrev FS := List (String × String)

/-- `Path.read_text`, as a lookup. `none` means the file does not exist. -/
def fsRead (fs : FS) (p : String) : Option String :=
  (fs.find? (fun e => e.1 == p)).map (·.2)

/-- `Path.exists()`. -/
def fsExists (fs : FS) (p : String) : Bool :=
  (fsRead fs p).isSome

/-- `Path.write_text`: create or overwrite. -/
def fsWrite (fs : FS) (p : String) (c : String) : FS :=
  fs.filter (fun e => e.1 != p) ++ [(p, c)]

/-- `Path.unlink`. -/
def fsUnlink (fs : FS) (p : String) : FS :=
  fs.filter (fun e => e.1 != p)

/-! ## String helpers: `str.splitlines(keepends=True)` -/

/-- The line-boundary characters recognized by Python `str.splitlines`. -/
def isLineBreakChar (c : Char) : Bool :=
  c == '\n' || c == '\r' || c == '\x0b' || c == '\x0c' ||
  c == '\x1c' || c == '\x1d' || c == '\x1e' || c == '\x85' ||
  c == '\u2028' || c == '\u2029'

/-- Worker for `splitlinesKeepends`; `acc` holds the current line reversed. -/
def splitlinesAux : List Char → List Char → List String
  | [], [] => []
  | [], acc => [String.mk acc.reverse]
  | '\r' :: '\n' :: rest, acc =>
      String.mk (acc.reverse ++ ['\r', '\n']) :: splitlinesAux rest []
  | c :: rest, acc =>
      if isLineBreakChar c then
        String.mk (acc.reverse ++ [c]) :: splitlinesAux rest []
      else
        splitlinesAux rest (c :: acc)

/-- Python `s.splitlines(True)`: split into lines, keeping the line
terminators (`\r\n` counts as a single terminator). -/
def splitlinesKeepends (s : String) : List String :=
  splitlinesAux s.data []

/-! ## Path helpers (`pathlib`) -/

/-- Index of the last occurrence of `c` in `cs` (Python `str.rfind`). -/
def rfindChar (cs : List Char) (c : Char) : Option Nat :=
  ((cs.enum.filter (fun p => p.2 == c)).map (·.1)).getLast?

/-- Split a POSIX path string into (directory part including the final
slash, final component); the whole string is the component when it has no
slash. -/
def lastSlashSplit (p : String) : String × String :=
  match rfindChar p.data '/' with
  | none => ("", p)
  | some i => (String.mk (p.data.take (i+1)), String.mk (p.data.drop (i+1)))

/-- `pathlib.PurePath.suffix` of a file name: the substring from the last
dot on, provided that dot is neither the first nor the last character of
the name. -/
def nameSuffix (name : String) : String :=
  match rfindChar name.data '.' with
  | none => ""
  | some i =>
      if 0 < i ∧ i < name.length - 1 then String.mk (name.data.drop i) else ""

/-- `p.with_suffix("")`: remove the final suffix of the last component
(used by `rollback` to derive the restore target from a backup path). -/
def withSuffixEmpty (p : String) : String :=
  let d := (lastSlashSplit p).1
  let name := (lastSlashSplit p).2
  let suf := nameSuffix name
  d ++ String.mk (name.data.take (name.length - suf.length))

/-- The backup path of an original path:
`path.with_suffix(path.suffix + ".apr.bak")`.  Since `with_suffix` replaces
the existing suffix, and the replacement is the existing suffix with
`".apr.bak"` appended, the result is always the original path with
`".apr.bak"` appended after its final extension. -/
def bakPath (p : String) : String :=
  p ++ ".apr.bak"

/-- Split on slashes (the semantics of `str.split("/")`: an empty string
yields one empty segment, and adjacent or trailing slashes yield empty
segments). -/
def splitSegsAux : List Char → List Char → List String
  | [], acc => [String.mk acc.reverse]
  | '/' :: rest, acc => String.mk acc.reverse :: splitSegsAux rest []
  | c :: rest, acc => splitSegsAux rest (c :: acc)

def splitSegs (p : String) : List String :=
  splitSegsAux p.data []

/-- Join segments with slashes. -/
def joinSlash : List String → String
  | [] => ""
  | [s] => s
  | s :: rest => s ++ "/" ++ joinSlash rest

/-- Worker for `resolveRel`.  The stack is kept reversed (head = deepest
component); `..` above the root yields `none`. -/
def resolveRelAux : List String → List String → Option (List String)
  | [], stk => some stk
  | seg :: rest, stk =>
      if seg = "" || seg = "." then resolveRelAux rest stk
      else if seg = ".." then
        match stk with
        | [] => none
        | _ :: stk₀ => resolveRelAux rest stk₀
      else resolveRelAux rest (seg :: stk)

/-- Resolve a change path against the repository root and re-express it
relative to the root, POSIX-normalized
(Python: `(repo_root / p).resolve()` then `relative_to(repo_root).as_posix()`).
The root's absolute location is not part of the model, so any resolution
that climbs above the root — a leading `..` surplus or an absolute path —
is modeled as the `ValueError` raised by `relative_to`, returned as `none`.
Symbolic links are not modeled. -/
def resolveRel (p : String) : Option String :=
  if p.data.head? == some '/' then none
  else
    (resolveRelAux (splitSegs p) []).map (fun stk =>
      match stk with
      | [] => "."
      | _ => joinSlash stk.reverse)

/-! ## `fnmatch` (CPython 3.11 `fnmatch.translate` semantics)

`fnmatch.fnmatch(name, pat)` case-normalizes both arguments (the identity on
POSIX) and matches `name` against the regular expression produced by
`translate(pat)`.  We embed the translation as a token list and give it a
direct matching semantics.  `translate` compiles interior `* fixed` pairs to
atomic groups `(?>.*?fixed)` (commit to the earliest occurrence of `fixed`);
because every non-star token matches exactly one character and each interior
piece is followed by another `*`, committing to the earliest occurrence is
equivalent to full backtracking, which is what `globMatchF` implements. -/

/-- An element of a translated character class: a junction hyphen that may
form a range, or an ordinary (escaped, hence literal) character. -/
inductive ClassItem where
  | sep : ClassItem
  | ch : Char → ClassItem
deriving DecidableEq, Repr

/-- One token of a translated pattern. -/
inductive GlobTok where
  /-- `*`: matches any sequence of characters (`(?s)` mode: including
  newlines and slashes). -/
  | star : GlobTok
  /-- `?` (and the `.` emitted for the degenerate class `!`): any single
  character. -/
  | anyChar : GlobTok
  /-- A literal character (`re.escape`d in the regex). -/
  | lit : Char → GlobTok
  /-- `(?!)`: an empty character class, which never matches. -/
  | never : GlobTok
  /-- A character class: negation flag, literal members, ranges. -/
  | cls : Bool → List Char → List (Char × Char) → GlobTok
deriving DecidableEq, Repr

/-- First index `≥ k` at which `c` occurs in `cs` (Python `str.find` with a
start bound). -/
def findCharFrom (cs : List Char) (c : Char) (k : Nat) : Option Nat :=
  ((cs.enum.filter (fun p => decide (k ≤ p.1) && p.2 == c)).map (·.1)).head?

/-- Relative index of the `]` closing a character class, given the
characters after the opening `[`: a leading `!` and a `]` immediately after
it (or immediately after the `[`) do not close the class. `none` means the
class is unterminated and `[` is a literal. -/
def classScanEnd (cs : List Char) : Option Nat :=
  let k₀ := if cs.head? == some '!' then 1 else 0
  let k₁ := if (cs.drop k₀).head? == some ']' then k₀ + 1 else k₀
  findCharFrom cs ']' k₁

/-- Split the class body on hyphens found at index `≥ skip`, restarting the
search two characters past each consumed hyphen (`k = k+3` in `translate`),
so each hyphen's range endpoints are skipped. The fuel is an upper bound on
the number of characters, making the recursion structural. -/
def splitChunksAux : Nat → List Char → Nat → List (List Char)
  | 0, cs, _ => [cs]
  | fuel+1, cs, skip =>
      match findCharFrom cs '-' skip with
      | none => [cs]
      | some k => cs.take k :: splitChunksAux fuel (cs.drop (k+1)) 2

/-- `translate`: a trailing empty chunk means the body ended in a hyphen,
which is appended to the previous chunk as a literal. -/
def fixLastChunk (chunks : List (List Char)) : List (List Char) :=
  match chunks.getLast? with
  | some [] =>
      match chunks.dropLast.getLast? with
      | some c => chunks.dropLast.dropLast ++ [c ++ ['-']]
      | none => chunks
  | _ => chunks

/-- `translate`'s removal of empty ranges (invalid in a regular
expression): walking right to left, when the last character of a chunk
exceeds the first character of the following chunk, the two chunks are
merged with both offending endpoint characters dropped. The empty-chunk
fallback cases cannot arise for chunk lists produced by `splitChunksAux`. -/
def mergeRanges : List (List Char) → List (List Char)
  | [] => []
  | c :: rest =>
      match mergeRanges rest with
      | [] => [c]
      | d :: ds =>
          match c.getLast?, d.head? with
          | some cl, some dh =>
              if dh < cl then (c.dropLast ++ d.drop 1) :: ds
              else c :: d :: ds
          | _, _ => c :: d :: ds

/-- Interleave the chunks with junction separators (the hyphens that may
form ranges); chunk-internal characters are escaped by `translate` and
hence literal. -/
def classItems : List (List Char) → List ClassItem
  | [] => []
  | [c] => c.map ClassItem.ch
  | c :: rest => c.map ClassItem.ch ++ ClassItem.sep :: classItems rest

/-- Regular-expression character-class semantics over the item list:
a junction hyphen between two characters forms a range; a leading or
trailing hyphen is literal. Returns (literal members, ranges). -/
def parseClassItems : List ClassItem → List Char × List (Char × Char)
  | [] => ([], [])
  | ClassItem.sep :: rest =>
      let r := parseClassItems rest
      ('-' :: r.1, r.2)
  | ClassItem.ch a :: ClassItem.sep :: ClassItem.ch b :: rest =>
      let r := parseClassItems rest
      (r.1, (a, b) :: r.2)
  | [ClassItem.ch a, ClassItem.sep] => ([a, '-'], [])
  | ClassItem.ch a :: ClassItem.sep :: ClassItem.sep :: rest =>
      let r := parseClassItems rest
      (r.1, (a, '-') :: r.2)
  | ClassItem.ch a :: rest =>
      let r := parseClassItems rest
      (a :: r.1, r.2)

/-- Build the class token from the merged chunks: an empty joined body
never matches, a body of exactly `!` matches any character, and otherwise a
leading `!` negates the class. -/
def classOfChunks (chunks : List (List Char)) : GlobTok :=
  match chunks with
  | [] => GlobTok.never
  | [[]] => GlobTok.never
  | [['!']] => GlobTok.anyChar
  | c₀ :: rest =>
      let neg := c₀.head? == some '!'
      let c₁ := if neg then c₀.drop 1 else c₀
      let pr := parseClassItems (classItems (c₁ :: rest))
      GlobTok.cls neg pr.1 pr.2

/-- Translate a (closed) class body into a token. -/
def classToken (cs : List Char) : GlobTok :=
  if cs.contains '-' then
    let skip := if cs.head? == some '!' then 2 else 1
    classOfChunks (mergeRanges (fixLastChunk (splitChunksAux (cs.length + 1) cs skip)))
  else if cs.head? == some '!' then GlobTok.cls true (cs.drop 1) []
  else GlobTok.cls false cs []

/-- Tokenize a pattern (fuel bounds the characters consumed, making the
class lookahead structural). -/
def globTokens : Nat → List Char → List GlobTok
  | 0, _ => []
  | _+1, [] => []
  | fuel+1, '*' :: rest => GlobTok.star :: globTokens fuel rest
  | fuel+1, '?' :: rest => GlobTok.anyChar :: globTokens fuel rest
  | fuel+1, '[' :: rest =>
      match classScanEnd rest with
      | none => GlobTok.lit '[' :: globTokens fuel rest
      | some j => classToken (rest.take j) :: globTokens fuel (rest.drop (j+1))
  | fuel+1, c :: rest => GlobTok.lit c :: globTokens fuel rest

/-- Collapse consecutive `*` tokens (`translate` compresses them). -/
def dedupStarsAux : Option GlobTok → List GlobTok → List GlobTok
  | _, [] => []
  | prev, t :: rest =>
      if prev == some GlobTok.star && t == GlobTok.star then
        dedupStarsAux prev rest
      else t :: dedupStarsAux (some t) rest

/-- Does a single (non-star) token match a character? -/
def tokMatchesChar : GlobTok → Char → Bool
  | GlobTok.star, _ => false
  | GlobTok.anyChar, _ => true
  | GlobTok.lit c, x => x == c
  | GlobTok.never, _ => false
  | GlobTok.cls neg lits ranges, x =>
      let inSet := lits.any (fun c => c == x) ||
        ranges.any (fun r => decide (r.1.val ≤ x.val ∧ x.val ≤ r.2.val))
      if neg then !inSet else inSet

/-- Full-match semantics of a token list against a character list, with
backtracking for `*` (fuelled: every call decreases the combined length of
the two lists, so fuel `|toks| + |cs| + 1` is sufficient). -/
def globMatchF : Nat → List GlobTok → List Char → Bool
  | 0, _, _ => false
  | _+1, [], [] => true
  | _+1, [], _ :: _ => false
  | fuel+1, GlobTok.star :: ps, [] => globMatchF fuel ps []
  | fuel+1, GlobTok.star :: ps, c :: cs =>
      globMatchF fuel ps (c :: cs) || globMatchF fuel (GlobTok.star :: ps) cs
  | _+1, _ :: _, [] => false
  | fuel+1, p :: ps, c :: cs => tokMatchesChar p c && globMatchF fuel ps cs

/-- `fnmatch.fnmatch` (POSIX: `normcase` is the identity). -/
def fnmatch (name pat : String) : Bool :=
  let toks := dedupStarsAux none (globTokens (pat.length + 1) pat.data)
  globMatchF (toks.length + name.length + 1) toks name.data

/-! ## `difflib` (CPython 3.11): `SequenceMatcher` and `Differ.compare`

`count_change_lines` calls `difflib.ndiff`, which is
`Differ(linejunk=None, charjunk=IS_CHARACTER_JUNK).compare`.  The embedding
is generic in the element type; it is instantiated at lines
(`List String`, no junk) and at characters (`List Char`, blank/tab junk)
exactly as in the source.  Indexing uses `getD`: every reachable index is
in range, so the defaults are never exercised.  Similarity ratios
(`2.0 * matches / length`) are modeled as exact rationals. -/

section Difflib

variable {α : Type} [DecidableEq α] [Inhabited α]

/-- Ascending list of the positions of `x` in `b` (a `b2j` entry before
junk and popular elements are purged). -/
def positionsOf (b : List α) (x : α) : List Nat :=
  (List.range b.length).filter (fun i => decide (b.getD i default = x))

/-- Number of occurrences of `x` in `b`. -/
def countOf (b : List α) (x : α) : Nat :=
  (b.filter (fun y => decide (y = x))).length

/-- The autojunk rule: a non-junk element of a sequence of length `≥ 200`
occurring more than `len // 100 + 1` times is "popular" and removed from
`b2j`. -/
def isPopular (isjunk : α → Bool) (b : List α) (x : α) : Bool :=
  !isjunk x && decide (200 ≤ b.length) && decide (b.length / 100 + 1 < countOf b x)

/-- `b2j.get(x, [])` after the junk and popular purges of `__chain_b`.
(The `bjunk` membership test of the extension loops coincides with `isjunk`
on elements of `b`, which are the only elements it is ever applied to.) -/
def b2jGet (isjunk : α → Bool) (b : List α) (x : α) : List Nat :=
  if isjunk x || isPopular isjunk b x then [] else positionsOf b x

/-- Lookup in the `j2len` association list, defaulting to `0`. -/
def lookupJ2 (m : List (Nat × Nat)) (j : Nat) : Nat :=
  ((m.find? (fun e => e.1 == j)).map (·.2)).getD 0

/-- One iteration of the inner (`j`) loop of `find_longest_match`:
`k = newj2len[j] = j2len.get(j-1, 0) + 1`, updating the best block when
`k > bestsize`. State: (newj2len, (besti, bestj, bestsize)). -/
def flmColStep (prev : List (Nat × Nat)) (i : Nat)
    (st : List (Nat × Nat) × Nat × Nat × Nat) (j : Nat) :
    List (Nat × Nat) × Nat × Nat × Nat :=
  let k := (if j = 0 then 0 else lookupJ2 prev (j - 1)) + 1
  let nj := st.1 ++ [(j, k)]
  if st.2.2.2 < k then (nj, i + 1 - k, j + 1 - k, k)
  else (nj, st.2)

/-- One iteration of the outer (`i`) loop of `find_longest_match`.  The
`continue`/`break` bounds checks on the ascending position list are the
filter to `[blo, bhi)`. -/
def flmRowStep (a b : List α) (isjunk : α → Bool) (blo bhi : Nat)
    (st : List (Nat × Nat) × Nat × Nat × Nat) (i : Nat) :
    List (Nat × Nat) × Nat × Nat × Nat :=
  let js := (b2jGet isjunk b (a.getD i default)).filter
    (fun j => decide (blo ≤ j) && decide (j < bhi))
  js.foldl (flmColStep st.1 i) ([], st.2)

/-- The dynamic-programming phase of `find_longest_match`, returning
`(besti, bestj, bestsize)`. -/
def flmDP (a b : List α) (isjunk : α → Bool) (alo ahi blo bhi : Nat) :
    Nat × Nat × Nat :=
  ((List.range' alo (ahi - alo)).foldl (flmRowStep a b isjunk blo bhi)
    ([], (alo, blo, 0))).2

/-- The two backward extension loops of `find_longest_match` (`junkPhase`
false for the non-junk loop, true for the junk loop).  Fuel: each step
decrements `besti`, so `besti` steps suffice. -/
def extLoF (a b : List α) (isjunk : α → Bool) (junkPhase : Bool)
    (alo blo : Nat) : Nat → Nat × Nat × Nat → Nat × Nat × Nat
  | 0, st => st
  | fuel+1, (besti, bestj, bestsize) =>
      if alo < besti ∧ blo < bestj ∧
         isjunk (b.getD (bestj - 1) default) = junkPhase ∧
         a.getD (besti - 1) default = b.getD (bestj - 1) default then
        extLoF a b isjunk junkPhase alo blo fuel (besti - 1, bestj - 1, bestsize + 1)
      else (besti, bestj, bestsize)

/-- The two forward extension loops of `find_longest_match`.  Fuel: each
step increments `bestsize`, bounded by `ahi`. -/
def extHiF (a b : List α) (isjunk : α → Bool) (junkPhase : Bool)
    (ahi bhi : Nat) : Nat → Nat × Nat × Nat → Nat × Nat × Nat
  | 0, st => st
  | fuel+1, (besti, bestj, bestsize) =>
      if besti + bestsize < ahi ∧ bestj + bestsize < bhi ∧
         isjunk (b.getD (bestj + bestsize) default) = junkPhase ∧
         a.getD (besti + bestsize) default = b.getD (bestj + bestsize) default then
        extHiF a b isjunk junkPhase ahi bhi fuel (besti, bestj, bestsize + 1)
      else (besti, bestj, bestsize)

/-- `SequenceMatcher.find_longest_match(alo, ahi, blo, bhi)`. -/
def findLongestMatch (a b : List α) (isjunk : α → Bool)
    (alo ahi blo bhi : Nat) : Nat × Nat × Nat :=
  let s₀ := flmDP a b isjunk alo ahi blo bhi
  let s₁ := extLoF a b isjunk false alo blo s₀.1 s₀
  let s₂ := extHiF a b isjunk false ahi bhi ahi s₁
  let s₃ := extLoF a b isjunk true alo blo s₂.1 s₂
  extHiF a b isjunk true ahi bhi ahi s₃

/-- The recursive gather of `get_matching_blocks` (the queue order of the
source only affects the pre-sort order of the collected list, which is
sorted afterwards; the collected set of blocks is recursion-order
independent).  Fuel: each recursive call strictly shrinks the region. -/
def mblocksF (a b : List α) (isjunk : α → Bool) :
    Nat → Nat → Nat → Nat → Nat → List (Nat × Nat × Nat)
  | 0, _, _, _, _ => []
  | fuel+1, alo, ahi, blo, bhi =>
      let m := findLongestMatch a b isjunk alo ahi blo bhi
      if m.2.2 = 0 then []
      else
        (if alo < m.1 ∧ blo < m.2.1 then mblocksF a b isjunk fuel alo m.1 blo m.2.1 else []) ++
        [(m.1, m.2.1, m.2.2)] ++
        (if m.1 + m.2.2 < ahi ∧ m.2.1 + m.2.2 < bhi then
          mblocksF a b isjunk fuel (m.1 + m.2.2) ahi (m.2.1 + m.2.2) bhi else [])

/-- Lexicographic order on block triples (Python tuple sort). -/
def tripleLe (x y : Nat × Nat × Nat) : Bool :=
  decide (x.1 < y.1) || (x.1 == y.1 && (decide (x.2.1 < y.2.1) ||
    (x.2.1 == y.2.1 && decide (x.2.2 ≤ y.2.2))))

def insertTriple (x : Nat × Nat × Nat) : List (Nat × Nat × Nat) → List (Nat × Nat × Nat)
  | [] => [x]
  | y :: ys => if tripleLe x y then x :: y :: ys else y :: insertTriple x ys

/-- `matching_blocks.sort()` (the blocks are pairwise distinct in their
first components, so any sort computes the same list). -/
def sortTriples : List (Nat × Nat × Nat) → List (Nat × Nat × Nat)
  | [] => []
  | x :: xs => insertTriple x (sortTriples xs)

/-- The adjacency-merging pass of `get_matching_blocks`, carrying the
pending block `(i1, j1, k1)` (initially `(0, 0, 0)`). -/
def mergeAdjacent : Nat × Nat × Nat → List (Nat × Nat × Nat) → List (Nat × Nat × Nat)
  | cur, [] => if cur.2.2 ≠ 0 then [cur] else []
  | cur, bl :: rest =>
      if cur.1 + cur.2.2 = bl.1 ∧ cur.2.1 + cur.2.2 = bl.2.1 then
        mergeAdjacent (cur.1, cur.2.1, cur.2.2 + bl.2.2) rest
      else
        (if cur.2.2 ≠ 0 then [(cur.1, cur.2.1, cur.2.2)] else []) ++ mergeAdjacent bl rest

/-- `SequenceMatcher.get_matching_blocks()`, sentinel included. -/
def getMatchingBlocks (a b : List α) (isjunk : α → Bool) : List (Nat × Nat × Nat) :=
  let blocks := sortTriples (mblocksF a b isjunk (a.length + b.length + 1) 0 a.length 0 b.length)
  mergeAdjacent (0, 0, 0) blocks ++ [(a.length, b.length, 0)]

/-- Opcode tags of `get_opcodes`. -/
inductive OpTag where
  | replace | delete | insert | equal
deriving DecidableEq, Repr

/-- The block-walking loop of `get_opcodes`, carrying `(i, j)`. -/
def opcodesAux : Nat → Nat → List (Nat × Nat × Nat) → List (OpTag × Nat × Nat × Nat × Nat)
  | _, _, [] => []
  | i, j, bl :: rest =>
      let ai := bl.1
      let bj := bl.2.1
      let size := bl.2.2
      (if i < ai ∧ j < bj then [(OpTag.replace, i, ai, j, bj)]
       else if i < ai then [(OpTag.delete, i, ai, j, bj)]
       else if j < bj then [(OpTag.insert, i, ai, j, bj)]
       else []) ++
      (if size ≠ 0 then [(OpTag.equal, ai, ai + size, bj, bj + size)] else []) ++
      opcodesAux (ai + size) (bj + size) rest

/-- `SequenceMatcher.get_opcodes()`. -/
def getOpcodes (a b : List α) (isjunk : α → Bool) : List (OpTag × Nat × Nat × Nat × Nat) :=
  opcodesAux 0 0 (getMatchingBlocks a b isjunk)

/-- An exact non-negative fraction (numerator, positive denominator).
Similarity ratios (`2.0 * matches / length` in the source) are modeled as
exact fractions; the source only ever compares ratios (never tests
equality), and the comparisons are performed exactly by
cross-multiplication. -/
structure Frac where
  num : Nat
  den : Nat
deriving DecidableEq, Repr

/-- Exact comparison `x < y` of fractions by cross-multiplication. -/
def fracLt (x y : Frac) : Bool :=
  decide (x.num * y.den < y.num * x.den)

/-- `difflib._calculate_ratio` (`2.0 * matches / length`, or `1.0` for two
empty sequences). -/
def calcRatio (m len : Nat) : Frac :=
  if len = 0 then ⟨1, 1⟩ else ⟨2 * m, len⟩

/-- `SequenceMatcher.ratio()`. -/
def smRatio (a b : List α) (isjunk : α → Bool) : Frac :=
  calcRatio ((getMatchingBlocks a b isjunk).foldl (fun acc t => acc + t.2.2) 0)
    (a.length + b.length)

/-- `SequenceMatcher.quick_ratio()`: the availability-counting loop computes
the size of the multiset intersection. -/
def quickRatio (a b : List α) : Frac :=
  calcRatio (a.dedup.foldl (fun acc x => acc + min (countOf a x) (countOf b x)) 0)
    (a.length + b.length)

/-- `SequenceMatcher.real_quick_ratio()`. -/
def realQuickRatio (a b : List α) : Frac :=
  calcRatio (min a.length b.length) (a.length + b.length)

end Difflib

/-- `difflib.IS_CHARACTER_JUNK`: blanks and tabs. -/
def isCharJunk (c : Char) : Bool :=
  c == ' ' || c == '\t'

/-- `Differ._dump`: tag every line of the slice. -/
def dumpTag (t : Char) (x : List String) (lo hi : Nat) : List (Char × String) :=
  (List.range' lo (hi - lo)).map (fun i => (t, x.getD i default))

/-- `Differ._plain_replace`: the shorter block is dumped first. -/
def plainReplace (a : List String) (alo ahi : Nat) (b : List String) (blo bhi : Nat) :
    List (Char × String) :=
  if bhi - blo < ahi - alo then dumpTag '+' b blo bhi ++ dumpTag '-' a alo ahi
  else dumpTag '-' a alo ahi ++ dumpTag '+' b blo bhi

/-- State of the similarity scan of `_fancy_replace`: best ratio so far,
its pair of indices, and the first identical pair. -/
structure FancySt where
  bestRatio : Frac
  best : Option (Nat × Nat)
  eq : Option (Nat × Nat)

/-- The double loop of `_fancy_replace` (outer over `j`, inner over `i`):
identical pairs record `eq` and are skipped; non-identical pairs become the
best candidate when all three ratio bounds of the character-level matcher
(blank/tab junk) strictly exceed the best ratio so far (initially `0.74`). -/
def fancyScan (a b : List String) (alo ahi blo bhi : Nat) : FancySt :=
  (List.range' blo (bhi - blo)).foldl (fun st j =>
    let bj := b.getD j default
    (List.range' alo (ahi - alo)).foldl (fun st i =>
      let ai := a.getD i default
      if ai = bj then
        if st.eq.isNone then { st with eq := some (i, j) } else st
      else if fracLt st.bestRatio (realQuickRatio ai.data bj.data) &&
              fracLt st.bestRatio (quickRatio ai.data bj.data) &&
              fracLt st.bestRatio (smRatio ai.data bj.data isCharJunk) then
        { st with bestRatio := smRatio ai.data bj.data isCharJunk, best := some (i, j) }
      else st) st) ⟨⟨74, 100⟩, none, none⟩

/-- `Differ._fancy_replace` (flag `true`) and `Differ._fancy_helper`
(flag `false`), as one fuelled mutual recursion.  Output entries are
(tag, line) pairs with tags `-`, `+`, `␣`; the `?` intraline-hint lines
that `_qformat` also emits are omitted: they begin with `?` and are
invisible to `count_change_lines` (which counts only `-` and `+` tags).
If the synch pair is the identical pair the single context line is
emitted; otherwise the `-`/`+` pair.  When the best ratio is below the
cutoff `0.75` and no identical pair exists, `_plain_replace` is used. -/
def fancyF : Nat → Bool → List String → Nat → Nat → List String → Nat → Nat →
    List (Char × String)
  | 0, _, _, _, _, _, _, _ => []
  | fuel+1, false, a, alo, ahi, b, blo, bhi =>
      if alo < ahi then
        if blo < bhi then fancyF fuel true a alo ahi b blo bhi
        else dumpTag '-' a alo ahi
      else if blo < bhi then dumpTag '+' b blo bhi
      else []
  | fuel+1, true, a, alo, ahi, b, blo, bhi =>
      let st := fancyScan a b alo ahi blo bhi
      match (if fracLt st.bestRatio ⟨75, 100⟩ then st.eq.map (fun p => (p, true))
             else st.best.map (fun p => (p, false))) with
      | none => plainReplace a alo ahi b blo bhi
      | some (p, ident) =>
          fancyF fuel false a alo p.1 b blo p.2 ++
          (if ident then [(' ', a.getD p.1 default)]
           else [('-', a.getD p.1 default), ('+', b.getD p.2 default)]) ++
          fancyF fuel false a (p.1 + 1) ahi b (p.2 + 1) bhi

/-- `Differ.compare` with `linejunk=None`, `charjunk=IS_CHARACTER_JUNK`,
i.e. the tagged lines of `difflib.ndiff` (minus the uncounted `?` hints). -/
def differCompare (a b : List String) : List (Char × String) :=
  (getOpcodes a b (fun _ => false)).foldl (fun acc op =>
    acc ++ match op.1 with
    | OpTag.replace => fancyF (2 * (a.length + b.length) + 4) true a op.2.1 op.2.2.1 b op.2.2.2.1 op.2.2.2.2
    | OpTag.delete => dumpTag '-' a op.2.1 op.2.2.1
    | OpTag.insert => dumpTag '+' b op.2.2.2.1 op.2.2.2.2
    | OpTag.equal => dumpTag ' ' a op.2.1 op.2.2.1) []

/-- `count_change_lines(old, new)`: the number of lines of
`difflib.ndiff(old.splitlines(True), new.splitlines(True))` marked `+` or
`-`. -/
def count_change_lines (old new : String) : Nat :=
  ((differCompare (splitlinesKeepends old) (splitlinesKeepends new)).filter
    (fun d => d.1 == '-' || d.1 == '+')).length

/-! ## The patch applier (`apply_changes`, `within_scope`, `rollback`) -/

/-- The configuration fields consumed by the applier.  `file_scopes`
models `cfg.get("file_scopes")` with the empty list standing for both an
absent and an empty (falsy) value; `max_change_lines` is `none` when the
key is absent (`cfg.get("max_change_lines", 120)` then defaults to 120). -/
structure Cfg where
  excludes : List String
  file_scopes : List String
  max_change_lines : Option Int
deriving Repr, DecidableEq

/-- `int(cfg.get("max_change_lines", 120))`. -/
def Cfg.maxChangeLines (cfg : Cfg) : Int :=
  cfg.max_change_lines.getD 120

/-- One entry of `patch["changes"]`: `content` models
`change.get("content", "")` already defaulted. -/
structure Change where
  path : String
  content : String
deriving Repr, DecidableEq

/-- `patch`: `changes` models `patch.get("changes", [])` already
defaulted. -/
structure Patch where
  changes : List Change
deriving Repr, DecidableEq

/-- `within_scope(rel_path, cfg)`: any exclude match rejects; an empty
(falsy) `file_scopes` admits everything else; otherwise some include
pattern must match. -/
def within_scope (rel : String) (cfg : Cfg) : Bool :=
  if cfg.excludes.any (fun ex => fnmatch rel ex) then false
  else if cfg.file_scopes.isEmpty then true
  else cfg.file_scopes.any (fun pat => fnmatch rel pat)

/-- The loop state of `apply_changes` together with the mutated
filesystem.  Backup paths are stored repo-relative (the source stores
absolute paths and relativizes them in the returned dict; all of them are
inside the root). -/
structure ApplyState where
  applied : List (String × Nat)
  backups : List String
  rejected : List (String × String)
  total : Nat
  fs : FS
deriving Repr, DecidableEq

/-- One iteration of the loop of `apply_changes`.  `none` models the
uncaught `ValueError` that `relative_to` raises when the resolved path
escapes the repository root, which aborts the whole invocation. -/
def applyStep (cfg : Cfg) (st : ApplyState) (c : Change) : Option ApplyState :=
  match resolveRel c.path with
  | none => none
  | some rel =>
      if !within_scope rel cfg then
        some { st with rejected := st.rejected ++ [(rel, "out_of_scope")] }
      else if !fsExists st.fs rel then
        some { st with rejected := st.rejected ++ [(rel, "not_found")] }
      else
        let old := (fsRead st.fs rel).getD ""
        let changed := count_change_lines old c.content
        if cfg.maxChangeLines < (st.total : Int) + (changed : Int) then
          some { st with rejected := st.rejected ++ [(rel, "max_change_lines_exceeded")] }
        else
          some { st with
            fs := fsWrite (fsWrite st.fs (bakPath rel) old) rel c.content,
            backups := st.backups ++ [bakPath rel],
            total := st.total + changed,
            applied := st.applied ++ [(rel, changed)] }

/-- The loop of `apply_changes`: a raised exception (`none`) aborts the
remaining iterations. -/
def applyChangesAux (cfg : Cfg) : Option ApplyState → List Change → Option ApplyState
  | none, _ => none
  | some st, [] => some st
  | some st, c :: rest => applyChangesAux cfg (applyStep cfg st c) rest

/-- The returned dict of `apply_changes`. -/
structure ApplyResult where
  applied : List (String × Nat)
  rejected : List (String × String)
  total_changed : Nat
  backups : List String
deriving Repr, DecidableEq

/-- `apply_changes(repo_root, cfg, patch)` over an initial filesystem;
returns the result dict and the final filesystem, or `none` when the
invocation raises. -/
def apply_changes (cfg : Cfg) (patch : Patch) (fs : FS) : Option (ApplyResult × FS) :=
  (applyChangesAux cfg (some ⟨[], [], [], 0, fs⟩) patch.changes).map (fun st =>
    (⟨st.applied, st.rejected, st.total, st.backups⟩, st.fs))

/-- One iteration of `rollback`: resolve the recorded backup path; if the
backup exists, write its content to the path obtained by removing the
final suffix (`bak.with_suffix("")`) and delete the backup.  A backup
entry resolving outside the root addresses a file outside the modeled
filesystem and is treated as absent.  The `try/except` swallows I/O
errors, which the model does not produce. -/
def rollbackStep (fs : FS) (b : String) : FS :=
  match resolveRel b with
  | none => fs
  | some bak =>
      if fsExists fs bak then
        fsUnlink (fsWrite fs (withSuffixEmpty bak) ((fsRead fs bak).getD "")) bak
      else fs

/-- `rollback(repo_root, result)`. -/
def rollback (result : ApplyResult) (fs : FS) : FS :=
  result.backups.foldl rollbackStep fs

/-! ## Helper lemmas about the applier loop -/

theorem applyChangesAux_none (cfg : Cfg) (cs : List Change) :
    applyChangesAux cfg none cs = none := by
  cases cs <;> rfl

theorem applyChangesAux_cons (cfg : Cfg) (st : ApplyState) (c : Change) (cs : List Change) :
    applyChangesAux cfg (some st) (c :: cs) = applyChangesAux cfg (applyStep cfg st c) cs := rfl

/-- Case analysis on a successful `applyStep`: the change was either
rejected (state unchanged except for the appended rejection entry) or
applied (budget check passed; backup written, file overwritten, totals
updated). -/
theorem applyStep_elim {cfg : Cfg} {st st' : ApplyState} {c : Change}
    (h : applyStep cfg st c = some st') :
    (∃ rel reason, resolveRel c.path = some rel ∧
        st' = { st with rejected := st.rejected ++ [(rel, reason)] }) ∨
    (∃ rel changed old, resolveRel c.path = some rel ∧
        fsRead st.fs rel = some old ∧
        changed = count_change_lines old c.content ∧
        (st.total : Int) + (changed : Int) ≤ cfg.maxChangeLines ∧
        st' = { st with
          fs := fsWrite (fsWrite st.fs (bakPath rel) old) rel c.content,
          backups := st.backups ++ [bakPath rel],
          total := st.total + changed,
          applied := st.applied ++ [(rel, changed)] }) := by
  rw [applyStep.eq_def] at h
  cases hres : resolveRel c.path with
  | none => rw [hres] at h; cases h
  | some rel =>
    rw [hres] at h
    dsimp only at h
    cases hscope : within_scope rel cfg with
    | false =>
        rw [hscope] at h
        simp only [Bool.not_false, if_true, eq_self_iff_true] at h
        exact Or.inl ⟨rel, "out_of_scope", rfl, (Option.some.inj h).symm⟩
    | true =>
        rw [hscope] at h
        simp only [Bool.not_true] at h
        rw [if_neg (by simp)] at h
        cases hex : fsExists st.fs rel with
        | false =>
            rw [hex] at h
            simp only [Bool.not_false, if_true, eq_self_iff_true] at h
            exact Or.inl ⟨rel, "not_found", rfl, (Option.some.inj h).symm⟩
        | true =>
            rw [hex] at h
            simp only [Bool.not_true] at h
            rw [if_neg (by simp)] at h
            obtain ⟨old, hold⟩ := Option.isSome_iff_exists.mp hex
            rw [hold] at h
            simp only [Option.getD_some] at h
            by_cases hbudget : cfg.maxChangeLines <
                (st.total : Int) + (count_change_lines old c.content : Int)
            · rw [if_pos hbudget] at h
              exact Or.inl ⟨rel, "max_change_lines_exceeded", rfl, (Option.some.inj h).symm⟩
            · rw [if_neg hbudget] at h
              exact Or.inr ⟨rel, count_change_lines old c.content, old, rfl, hold, rfl,
                le_of_not_lt hbudget, (Option.some.inj h).symm⟩

theorem applyAux_backups_map (cfg : Cfg) : ∀ (cs : List Change) (st st₁ : ApplyState),
    applyChangesAux cfg (some st) cs = some st₁ →
    st.backups = st.applied.map (fun e => bakPath e.1) →
    st₁.backups = st₁.applied.map (fun e => bakPath e.1) := by
  intro cs
  induction cs with
  | nil => intro st st₁ h hinv; cases h; exact hinv
  | cons c rest ih =>
      intro st st₁ h hinv
      rw [applyChangesAux_cons] at h
      cases hstep : applyStep cfg st c with
      | none => rw [hstep, applyChangesAux_none] at h; cases h
      | some st' =>
          rw [hstep] at h
          refine ih st' st₁ h ?_
          rcases applyStep_elim hstep with ⟨rel, reason, _, rfl⟩ |
            ⟨rel, changed, old, _, _, _, _, rfl⟩
          · simpa using hinv
          · simp [hinv]

theorem applyAux_total_sum (cfg : Cfg) : ∀ (cs : List Change) (st st₁ : ApplyState),
    applyChangesAux cfg (some st) cs = some st₁ →
    st.total = (st.applied.map Prod.snd).sum →
    st₁.total = (st₁.applied.map Prod.snd).sum := by
  intro cs
  induction cs with
  | nil => intro st st₁ h hinv; cases h; exact hinv
  | cons c rest ih =>
      intro st st₁ h hinv
      rw [applyChangesAux_cons] at h
      cases hstep : applyStep cfg st c with
      | none => rw [hstep, applyChangesAux_none] at h; cases h
      | some st' =>
          rw [hstep] at h
          refine ih st' st₁ h ?_
          rcases applyStep_elim hstep with ⟨rel, reason, _, rfl⟩ |
            ⟨rel, changed, old, _, _, _, _, rfl⟩
          · simpa using hinv
          · simp [hinv]

theorem applyAux_total_le (cfg : Cfg) : ∀ (cs : List Change) (st st₁ : ApplyState),
    applyChangesAux cfg (some st) cs = some st₁ →
    (st.total : Int) ≤ cfg.maxChangeLines →
    (st₁.total : Int) ≤ cfg.maxChangeLines := by
  intro cs
  induction cs with
  | nil => intro st st₁ h hinv; cases h; exact hinv
  | cons c rest ih =>
      intro st st₁ h hinv
      rw [applyChangesAux_cons] at h
      cases hstep : applyStep cfg st c with
      | none => rw [hstep, applyChangesAux_none] at h; cases h
      | some st' =>
          rw [hstep] at h
          refine ih st' st₁ h ?_
          rcases applyStep_elim hstep with ⟨rel, reason, _, rfl⟩ |
            ⟨rel, changed, old, _, _, _, hle, rfl⟩
          · simpa using hinv
          · simpa using hle

theorem applyAux_none_of_escape (cfg : Cfg) : ∀ (cs : List Change) (st : ApplyState),
    (∃ c ∈ cs, resolveRel c.path = none) →
    applyChangesAux cfg (some st) cs = none := by
  intro cs
  induction cs with
  | nil => intro st h; simp at h
  | cons c rest ih =>
      intro st h
      obtain ⟨c', hc', hres⟩ := h
      rw [applyChangesAux_cons]
      rcases List.mem_cons.mp hc' with rfl | hmem
      · have hstep : applyStep cfg st c' = none := by
          rw [applyStep.eq_def, hres]
        rw [hstep, applyChangesAux_none]
      · cases hstep : applyStep cfg st c with
        | none => rw [applyChangesAux_none]
        | some st' => exact ih st' ⟨c', hmem, hres⟩

theorem rollback_noop_of_absent (bs : List String) (fs : FS)
    (h : ∀ b ∈ bs, ∀ rb ∈ resolveRel b, fsExists fs rb = false) :
    bs.foldl rollbackStep fs = fs := by
  induction bs with
  | nil => rfl
  | cons b rest ih =>
      have hstep : rollbackStep fs b = fs := by
        rw [rollbackStep.eq_def]
        cases hr : resolveRel b with
        | none => rfl
        | some rb => simp [h b (List.mem_cons_self b rest) rb (by simp [hr])]
      rw [List.foldl_cons, hstep]
      exact ih (fun b' hb' rb hrb => h b' (List.mem_cons_of_mem b hb') rb hrb)

theorem fsRead_fsWrite (fs : FS) (p c q : String) :
    fsRead (fsWrite fs p c) q = if q = p then some c else fsRead fs q := by
  unfold fsRead fsWrite
  induction fs with
  | nil =>
      by_cases hqp : q = p
      · simp [hqp, List.find?]
      · have hpq : (p == q) = false := beq_eq_false_iff_ne.mpr (Ne.symm hqp)
        simp [List.find?, hpq, hqp]
  | cons e fs ih =>
      rw [List.filter_cons]
      by_cases hep : e.1 = p
      · have h1 : (e.1 != p) = false := by simp [hep]
        rw [h1]
        simp only [Bool.false_eq_true, if_false]
        by_cases hqp : q = p
        · rw [ih, if_pos hqp, if_pos hqp]
        · have h2 : (e.1 == q) = false := by
            refine beq_eq_false_iff_ne.mpr (fun h => hqp ?_)
            rw [← h, hep]
          rw [ih, if_neg hqp, if_neg hqp]
          simp [List.find?, h2]
      · have h1 : (e.1 != p) = true := by simp [hep]
        rw [h1]
        simp only [if_true]
        by_cases heq : e.1 = q
        · have hqp : ¬ q = p := fun h => hep (heq.trans h)
          have h2 : (e.1 == q) = true := beq_iff_eq.mpr heq
          rw [if_neg hqp]
          simp [List.find?, h2]
        · have h2 : (e.1 == q) = false := beq_eq_false_iff_ne.mpr heq
          by_cases hqp : q = p
          · rw [if_pos hqp]
            simp only [List.cons_append, List.find?, h2, List.append_eq]
            rw [ih, if_pos hqp]
          · rw [if_neg hqp]
            simp only [List.cons_append, List.find?, h2, List.append_eq]
            rw [ih, if_neg hqp]

theorem fsRead_fsUnlink (fs : FS) (p q : String) :
    fsRead (fsUnlink fs p) q = if q = p then none else fsRead fs q := by
  unfold fsRead fsUnlink
  induction fs with
  | nil => simp [List.find?]
  | cons e fs ih =>
      rw [List.filter_cons]
      by_cases hep : e.1 = p
      · have h1 : (e.1 != p) = false := by simp [hep]
        rw [h1]
        simp only [Bool.false_eq_true, if_false]
        by_cases hqp : q = p
        · rw [ih, if_pos hqp, if_pos hqp]
        · have h2 : (e.1 == q) = false := by
            refine beq_eq_false_iff_ne.mpr (fun h => hqp ?_)
            rw [← h, hep]
          rw [ih, if_neg hqp, if_neg hqp]
          simp [List.find?, h2]
      · have h1 : (e.1 != p) = true := by simp [hep]
        rw [h1]
        simp only [if_true]
        by_cases heq : e.1 = q
        · have hqp : ¬ q = p := fun h => hep (heq.trans h)
          have h2 : (e.1 == q) = true := beq_iff_eq.mpr heq
          rw [if_neg hqp]
          simp [List.find?, h2]
        · have h2 : (e.1 == q) = false := beq_eq_false_iff_ne.mpr heq
          by_cases hqp : q = p
          · rw [if_pos hqp]
            simp only [List.find?, h2]
            rw [ih, if_pos hqp]
          · rw [if_neg hqp]
            simp only [List.find?, h2]
            rw [ih, if_neg hqp]

theorem stringAppend_data (a b : String) : (a ++ b).data = a.data ++ b.data := rfl

theorem bakPath_inj {p q : String} (h : bakPath p = bakPath q) : p = q := by
  have hd : p.data ++ (".apr.bak" : String).data = q.data ++ (".apr.bak" : String).data := by
    have := congrArg String.data h
    simpa [bakPath, stringAppend_data] using this
  have hpq := List.append_cancel_right hd
  exact congrArg String.mk hpq

theorem bakPath_ne_self (p : String) : bakPath p ≠ p := by
  intro h
  have hlen := congrArg String.length h
  rw [bakPath, String.length_append] at hlen
  have h8 : (".apr.bak" : String).length = 8 := rfl
  rw [h8] at hlen
  omega

theorem applyAux_count (cfg : Cfg) : ∀ (cs : List Change) (st st₁ : ApplyState),
    applyChangesAux cfg (some st) cs = some st₁ → ∀ p : String,
    (st₁.applied.map Prod.fst).count p + (st₁.rejected.map Prod.fst).count p =
      (st.applied.map Prod.fst).count p + (st.rejected.map Prod.fst).count p +
        (cs.filterMap (fun c => resolveRel c.path)).count p := by
  intro cs
  induction cs with
  | nil => intro st st₁ h p; cases h; simp
  | cons c rest ih =>
      intro st st₁ h p
      rw [applyChangesAux_cons] at h
      cases hstep : applyStep cfg st c with
      | none => rw [hstep, applyChangesAux_none] at h; cases h
      | some st' =>
          rw [hstep] at h
          have hrec := ih st' st₁ h p
          rcases applyStep_elim hstep with ⟨rel, reason, hres, rfl⟩ |
            ⟨rel, changed, old, hres, _, _, _, rfl⟩ <;>
          · rw [hrec]
            simp only [List.filterMap_cons, hres, List.map_append, List.count_append,
              List.map_cons, List.map_nil]
            by_cases hpr : p = rel
            · subst hpr
              simp [List.count_cons]
              omega
            · simp [List.count_cons, hpr]

theorem applyAux_applied_sub (cfg : Cfg) : ∀ (cs : List Change) (st st₁ : ApplyState),
    applyChangesAux cfg (some st) cs = some st₁ →
    ∀ p, p ∈ st₁.applied.map Prod.fst →
      p ∈ st.applied.map Prod.fst ∨ p ∈ cs.filterMap (fun c => resolveRel c.path) := by
  intro cs
  induction cs with
  | nil => intro st st₁ h p hp; cases h; exact Or.inl hp
  | cons c rest ih =>
      intro st st₁ h p hp
      rw [applyChangesAux_cons] at h
      cases hstep : applyStep cfg st c with
      | none => rw [hstep, applyChangesAux_none] at h; cases h
      | some st₂ =>
          rw [hstep] at h
          rcases applyStep_elim hstep with ⟨rel, reason, hres, rfl⟩ |
            ⟨rel, changed, old, hres, _, _, _, rfl⟩
          · rcases ih _ st₁ h p hp with hin | hin
            · exact Or.inl (by simpa using hin)
            · exact Or.inr (by simp [List.filterMap_cons, hres, hin])
          · rcases ih _ st₁ h p hp with hin | hin
            · simp only [List.map_append, List.mem_append] at hin
              rcases hin with hin | hin
              · exact Or.inl hin
              · simp only [List.map_cons, List.map_nil, List.mem_singleton] at hin
                exact Or.inr (by simp [List.filterMap_cons, hres, hin])
            · exact Or.inr (by simp [List.filterMap_cons, hres, hin])

theorem applyAux_backup_content (cfg : Cfg) : ∀ (cs : List Change) (st st₁ : ApplyState),
    applyChangesAux cfg (some st) cs = some st₁ →
    (∀ p ∈ st.applied.map Prod.fst, p ∉ cs.filterMap (fun c => resolveRel c.path)) →
    (cs.filterMap (fun c => resolveRel c.path)).Nodup →
    (∀ p q : String,
      (p ∈ st.applied.map Prod.fst ∨ p ∈ cs.filterMap (fun c => resolveRel c.path)) →
      (q ∈ st.applied.map Prod.fst ∨ q ∈ cs.filterMap (fun c => resolveRel c.path)) →
      p ≠ bakPath q) →
    (∀ p ∈ st.applied.map Prod.fst, fsRead st₁.fs (bakPath p) = fsRead st.fs (bakPath p)) ∧
    (∀ p, p ∈ st₁.applied.map Prod.fst → p ∉ st.applied.map Prod.fst →
       fsRead st₁.fs (bakPath p) = fsRead st.fs p) := by
  intro cs
  induction cs with
  | nil =>
      intro st st₁ h _ _ _
      cases h
      exact ⟨fun p _ => rfl, fun p hp hnp => absurd hp hnp⟩
  | cons c rest ih =>
      intro st st₁ h hdisj hnd hnb
      rw [applyChangesAux_cons] at h
      cases hstep : applyStep cfg st c with
      | none => rw [hstep, applyChangesAux_none] at h; cases h
      | some st₂ =>
          rw [hstep] at h
          rcases applyStep_elim hstep with ⟨rel, reason, hres, rfl⟩ |
            ⟨rel, changed, old, hres, hold, _, _, rfl⟩
          · -- rejected: filesystem and applied list unchanged
            have hrels : (c :: rest).filterMap (fun c => resolveRel c.path) =
                rel :: rest.filterMap (fun c => resolveRel c.path) := by
              simp [List.filterMap_cons, hres]
            rw [hrels] at hdisj hnd hnb
            refine ih { st with rejected := st.rejected ++ [(rel, reason)] } st₁ h ?_
              (List.Nodup.of_cons hnd) ?_
            · intro p hp
              have hp₀ : p ∈ st.applied.map Prod.fst := by simpa using hp
              have := hdisj p hp₀
              simp only [List.mem_cons] at this
              exact fun hm => this (Or.inr hm)
            · intro p q hp hq
              refine hnb p q ?_ ?_
              · rcases hp with hp | hp
                · exact Or.inl (by simpa using hp)
                · exact Or.inr (List.mem_cons_of_mem _ hp)
              · rcases hq with hq | hq
                · exact Or.inl (by simpa using hq)
                · exact Or.inr (List.mem_cons_of_mem _ hq)
          · -- applied: the file and its backup are written
            have hrels : (c :: rest).filterMap (fun c => resolveRel c.path) =
                rel :: rest.filterMap (fun c => resolveRel c.path) := by
              simp [List.filterMap_cons, hres]
            rw [hrels] at hdisj hnd hnb
            have hrelnotrest : rel ∉ rest.filterMap (fun c => resolveRel c.path) :=
              (List.nodup_cons.mp hnd).1
            have hrelmem : rel ∈ rel :: rest.filterMap (fun c => resolveRel c.path) :=
              List.mem_cons_self _ _
            have hdisj' : ∀ p ∈ (st.applied ++ [(rel, changed)]).map Prod.fst,
                p ∉ rest.filterMap (fun c => resolveRel c.path) := by
              intro p hp
              simp only [List.map_append, List.mem_append, List.map_cons, List.map_nil,
                List.mem_singleton] at hp
              rcases hp with hp | rfl
              · have := hdisj p hp
                simp only [List.mem_cons] at this
                exact fun hm => this (Or.inr hm)
              · exact hrelnotrest
            have hmemcast : ∀ x : String,
                (x ∈ (st.applied ++ [(rel, changed)]).map Prod.fst ∨
                 x ∈ rest.filterMap (fun c => resolveRel c.path)) →
                (x ∈ st.applied.map Prod.fst ∨
                 x ∈ rel :: rest.filterMap (fun c => resolveRel c.path)) := by
              intro x hx
              rcases hx with hx | hx
              · simp only [List.map_append, List.mem_append, List.map_cons, List.map_nil,
                  List.mem_singleton] at hx
                rcases hx with hx | rfl
                · exact Or.inl hx
                · exact Or.inr (List.mem_cons_self _ _)
              · exact Or.inr (List.mem_cons_of_mem _ hx)
            have ihres := ih _ st₁ h hdisj' (List.Nodup.of_cons hnd)
              (fun p q hp hq => hnb p q (hmemcast p hp) (hmemcast q hq))
            constructor
            · intro p hp
              have hpmem : p ∈ (st.applied ++ [(rel, changed)]).map Prod.fst := by
                simp only [List.map_append, List.mem_append]; exact Or.inl hp
              have h₁ := ihres.1 p hpmem
              have hpne : p ≠ rel := by
                intro heq
                exact hdisj p hp (heq ▸ hrelmem)
              have hbne₁ : bakPath p ≠ rel :=
                fun heq => hnb rel p (Or.inr hrelmem) (Or.inl hp) heq.symm
              have hbne₂ : bakPath p ≠ bakPath rel :=
                fun heq => hpne (bakPath_inj heq)
              rw [h₁]
              show fsRead (fsWrite (fsWrite st.fs (bakPath rel) old) rel c.content)
                  (bakPath p) = fsRead st.fs (bakPath p)
              rw [fsRead_fsWrite, if_neg hbne₁, fsRead_fsWrite, if_neg hbne₂]
            · intro p hp hnp
              by_cases hpr : p = rel
              · subst hpr
                have hpmem : p ∈ (st.applied ++ [(p, changed)]).map Prod.fst := by simp
                have h₁ := ihres.1 p hpmem
                rw [h₁]
                show fsRead (fsWrite (fsWrite st.fs (bakPath p) old) p c.content)
                    (bakPath p) = fsRead st.fs p
                rw [fsRead_fsWrite, if_neg (bakPath_ne_self p), fsRead_fsWrite,
                  if_pos rfl, hold]
              · have hpmem' : p ∉ (st.applied ++ [(rel, changed)]).map Prod.fst := by
                  simp only [List.map_append, List.mem_append, List.map_cons, List.map_nil,
                    List.mem_singleton]
                  rintro (hin | rfl)
                  · exact hnp hin
                  · exact hpr rfl
                have h₂ := ihres.2 p hp hpmem'
                have hpunion : p ∈ st.applied.map Prod.fst ∨
                    p ∈ rel :: rest.filterMap (fun c => resolveRel c.path) := by
                  rcases applyAux_applied_sub cfg rest _ st₁ h p hp with hin | hin
                  · exact hmemcast p (Or.inl hin)
                  · exact Or.inr (List.mem_cons_of_mem _ hin)
                have hbne₂ : p ≠ bakPath rel :=
                  hnb p rel hpunion (Or.inr hrelmem)
                rw [h₂]
                show fsRead (fsWrite (fsWrite st.fs (bakPath rel) old) rel c.content) p =
                  fsRead st.fs p
                rw [fsRead_fsWrite, if_neg hpr, fsRead_fsWrite, if_neg hbne₂]

/-! ## Claim theorems -/

/-- C1 (code bug): applying a patch that replaces `a.txt` (content
`"old\n"`) with `"new\n"` and then rolling back with the returned result
does NOT restore `a.txt`: `rollback` derives the restore target with
`bak.with_suffix("")`, which strips only the final `".bak"` of
`"a.txt.apr.bak"` (despite the source comment `# remove .apr.bak`), so the
pre-apply bytes are written to the stray file `"a.txt.apr"` while `a.txt`
keeps the patched content.  Only the claim's "no backup file remains" part
holds.  The final filesystem computed here falsifies P4 at this input. -/
theorem C1_rollback_misses_original :
    (apply_changes ⟨[], [], none⟩ ⟨[⟨"a.txt", "new\n"⟩]⟩ [("a.txt", "old\n")]).map
        (fun r => rollback r.1 r.2) =
      some [("a.txt", "new\n"), ("a.txt.apr", "old\n")] := by decide

/-- C2 (counterexample): a change whose path escapes the repository root
does not produce an `out_of_scope` rejection and does not let the batch
continue — `relative_to` raises `ValueError` (modeled as `none`), aborting
the whole invocation, so the following valid change is never processed and
no result is returned. -/
theorem C2_counterexample :
    apply_changes ⟨[], [], none⟩ ⟨[⟨"../evil.txt", "x"⟩, ⟨"ok.txt", "y"⟩]⟩
      [("ok.txt", "old\n")] = none := by decide

/-- C2 (amended): if any change's path escapes the repository root, the
whole `apply_changes` invocation raises (returns no result); the escaping
change is not rejected per-file and the batch does not continue. -/
theorem C2_escape_raises (cfg : Cfg) (patch : Patch) (fs : FS)
    (h : ∃ c ∈ patch.changes, resolveRel c.path = none) :
    apply_changes cfg patch fs = none := by
  unfold apply_changes
  rw [applyAux_none_of_escape cfg patch.changes _ h]
  rfl

theorem C2_escape_raises_witness :
    (∃ c ∈ (⟨[⟨"../w.txt", "v"⟩]⟩ : Patch).changes, resolveRel c.path = none) ∧
    apply_changes ⟨[], [], none⟩ ⟨[⟨"../w.txt", "v"⟩]⟩ [] = none :=
  ⟨by decide, C2_escape_raises ⟨[], [], none⟩ ⟨[⟨"../w.txt", "v"⟩]⟩ [] (by decide)⟩

/-- C4: after a successful `apply_changes`, the returned total equals the
sum of the per-file changed-line counts of the applied entries, and (for a
non-negative budget, as the spec's `ScopeConfig` invariant requires) never
exceeds `max_change_lines`.  The budget check happens before mutation and
rejected changes leave the running total untouched, which is what makes
the sum equation hold; instantiating the theorem at any prefix of the
change list bounds every intermediate running total as well. -/
theorem C4_total_is_sum_and_bounded (cfg : Cfg) (patch : Patch) (fs : FS)
    (r : ApplyResult) (fs₁ : FS)
    (h : apply_changes cfg patch fs = some (r, fs₁)) :
    r.total_changed = (r.applied.map Prod.snd).sum ∧
    (0 ≤ cfg.maxChangeLines → (r.total_changed : Int) ≤ cfg.maxChangeLines) := by
  unfold apply_changes at h
  cases haux : applyChangesAux cfg (some ⟨[], [], [], 0, fs⟩) patch.changes with
  | none => rw [haux] at h; cases h
  | some st₁ =>
      rw [haux] at h
      simp only [Option.map_some', Option.some.injEq] at h
      obtain ⟨h₁, _⟩ := Prod.mk.injEq .. ▸ h
      subst h₁
      constructor
      · exact applyAux_total_sum cfg patch.changes _ st₁ haux rfl
      · intro hmax
        exact applyAux_total_le cfg patch.changes _ st₁ haux (by simpa using hmax)

theorem C4_total_is_sum_and_bounded_witness :
    apply_changes ⟨[], [], none⟩ ⟨[⟨"w.txt", "x\ny\n"⟩]⟩ [("w.txt", "x\n")] =
      some (⟨[("w.txt", 1)], [], 1, ["w.txt.apr.bak"]⟩,
            [("w.txt.apr.bak", "x\n"), ("w.txt", "x\ny\n")]) ∧
    ((⟨[("w.txt", 1)], [], 1, ["w.txt.apr.bak"]⟩ : ApplyResult).total_changed =
        (((⟨[("w.txt", 1)], [], 1, ["w.txt.apr.bak"]⟩ : ApplyResult).applied.map Prod.snd).sum) ∧
      (0 ≤ (⟨[], [], none⟩ : Cfg).maxChangeLines →
        (((⟨[("w.txt", 1)], [], 1, ["w.txt.apr.bak"]⟩ : ApplyResult).total_changed : Int)) ≤
          (⟨[], [], none⟩ : Cfg).maxChangeLines)) :=
  ⟨by decide,
   C4_total_is_sum_and_bounded ⟨[], [], none⟩ ⟨[⟨"w.txt", "x\ny\n"⟩]⟩ [("w.txt", "x\n")]
     ⟨[("w.txt", 1)], [], 1, ["w.txt.apr.bak"]⟩
     [("w.txt.apr.bak", "x\n"), ("w.txt", "x\ny\n")] (by decide)⟩

/-- C6: exclusion is absolute — a relative path matching any exclude
pattern is out of scope even when it also matches an include pattern, and
`apply_changes` rejects such a change with reason `out_of_scope` while
continuing; with an empty include set, any path matching no exclude
pattern is in scope. -/
theorem C6_exclude_precedence (cfg : Cfg) (rel : String) :
    ((∃ ex ∈ cfg.excludes, fnmatch rel ex = true) → within_scope rel cfg = false) ∧
    (cfg.file_scopes = [] → (∀ ex ∈ cfg.excludes, fnmatch rel ex = false) →
      within_scope rel cfg = true) ∧
    (∀ (st : ApplyState) (c : Change), resolveRel c.path = some rel →
      (∃ ex ∈ cfg.excludes, fnmatch rel ex = true) →
      applyStep cfg st c =
        some { st with rejected := st.rejected ++ [(rel, "out_of_scope")] }) := by
  have harm₁ : (∃ ex ∈ cfg.excludes, fnmatch rel ex = true) →
      within_scope rel cfg = false := by
    intro hex
    unfold within_scope
    rw [if_pos (List.any_eq_true.mpr (by simpa using hex))]
  refine ⟨harm₁, ?_, ?_⟩
  · intro hempty hnone
    unfold within_scope
    rw [if_neg, if_pos]
    · simp [hempty]
    · simp only [List.any_eq_true, not_exists, not_and]
      intro ex hmem
      simp [hnone ex hmem]
  · intro st c hres hex
    rw [applyStep.eq_def, hres]
    dsimp only
    rw [harm₁ hex]
    simp

theorem C6_exclude_precedence_witness :
    (∃ ex ∈ ["*.secret"], fnmatch "k.secret" ex = true) ∧
    within_scope "k.secret" ⟨["*.secret"], ["*"], none⟩ = false ∧
    within_scope "k.txt" ⟨["*.secret"], [], none⟩ = true :=
  ⟨by decide,
   (C6_exclude_precedence ⟨["*.secret"], ["*"], none⟩ "k.secret").1 (by decide),
   (C6_exclude_precedence ⟨["*.secret"], [], none⟩ "k.txt").2.1 rfl (by decide)⟩

/-- C8: a change whose resolved in-scope path names no existing file is
rejected with reason `not_found`, the loop continues (the step returns a
state rather than raising), and the step leaves the filesystem, the
applied list, the backups and the running total untouched — only the
rejection entry is appended. -/
theorem C8_missing_file_rejected (cfg : Cfg) (st : ApplyState) (c : Change) (rel : String)
    (h₁ : resolveRel c.path = some rel)
    (h₂ : within_scope rel cfg = true)
    (h₃ : fsRead st.fs rel = none) :
    applyStep cfg st c = some { st with rejected := st.rejected ++ [(rel, "not_found")] } := by
  rw [applyStep.eq_def, h₁]
  dsimp only
  rw [h₂]
  simp [fsExists, h₃]

theorem C8_missing_file_rejected_witness :
    (resolveRel "gone.txt" = some "gone.txt" ∧
     within_scope "gone.txt" (⟨[], [], none⟩ : Cfg) = true ∧
     fsRead [("other.txt", "z\n")] "gone.txt" = none) ∧
    applyStep ⟨[], [], none⟩ ⟨[], [], [], 0, [("other.txt", "z\n")]⟩ ⟨"gone.txt", "w"⟩ =
      some ⟨[], [], [("gone.txt", "not_found")], 0, [("other.txt", "z\n")]⟩ :=
  ⟨⟨by decide, by decide, by decide⟩,
   C8_missing_file_rejected ⟨[], [], none⟩ ⟨[], [], [], 0, [("other.txt", "z\n")]⟩
     ⟨"gone.txt", "w"⟩ "gone.txt" (by decide) (by decide) (by decide)⟩

/-- Are all recorded backups absent from the filesystem?  (Backups whose
recorded path fails to resolve address files outside the modeled root.) -/
def backupsConsumed (bs : List String) (fs : FS) : Bool :=
  bs.all (fun b => (resolveRel b).all (fun rb => !fsExists fs rb))

/-- C9: once the backups named in an `ApplyResult` have been consumed (no
recorded backup file exists any more, as after a first `rollback`), calling
`rollback` with that result is a no-op: every absent backup is skipped, no
file content is modified, and hence the combined effect of two `rollback`
calls equals that of one. -/
theorem C9_rollback_idempotent (result : ApplyResult) (fs : FS)
    (h : backupsConsumed result.backups fs = true) :
    rollback result fs = fs := by
  refine rollback_noop_of_absent result.backups fs ?_
  intro b hb rb hrb
  have hball := (List.all_eq_true.mp h) b hb
  cases hres : resolveRel b with
  | none => rw [hres] at hrb; cases hrb
  | some rb' =>
      rw [hres] at hrb hball
      obtain rfl : rb' = rb := by simpa using hrb
      simpa using hball

theorem C9_rollback_idempotent_witness :
    backupsConsumed (⟨[("r.txt", 1)], [], 1, ["r.txt.apr.bak"]⟩ : ApplyResult).backups
      [("r.txt", "q\n"), ("r.txt.apr", "p\n")] = true ∧
    rollback ⟨[("r.txt", 1)], [], 1, ["r.txt.apr.bak"]⟩
      [("r.txt", "q\n"), ("r.txt.apr", "p\n")] = [("r.txt", "q\n"), ("r.txt.apr", "p\n")] :=
  ⟨by decide,
   C9_rollback_idempotent ⟨[("r.txt", 1)], [], 1, ["r.txt.apr.bak"]⟩
     [("r.txt", "q\n"), ("r.txt.apr", "p\n")] (by decide)⟩

/-- C10: a successful `apply_changes` returns exactly one backup entry per
applied entry, in the same order, and the i-th backup path is the i-th
applied path with the fixed suffix `".apr.bak"` appended after its final
extension (`bakPath`); an empty (or absent, which parses to empty) change
list returns empty `applied`, `rejected` and `backups` and a zero total,
leaving the filesystem unchanged. -/
theorem C10_backups_match_applied (cfg : Cfg) (patch : Patch) (fs : FS)
    (r : ApplyResult) (fs₁ : FS)
    (h : apply_changes cfg patch fs = some (r, fs₁)) :
    r.backups = r.applied.map (fun e => bakPath e.1) ∧
    (patch.changes = [] → r = ⟨[], [], 0, []⟩ ∧ fs₁ = fs) := by
  unfold apply_changes at h
  cases haux : applyChangesAux cfg (some ⟨[], [], [], 0, fs⟩) patch.changes with
  | none => rw [haux] at h; cases h
  | some st₁ =>
      rw [haux] at h
      simp only [Option.map_some', Option.some.injEq] at h
      obtain ⟨h₁, h₂⟩ := Prod.mk.injEq .. ▸ h
      subst h₁
      constructor
      · exact applyAux_backups_map cfg patch.changes _ st₁ haux rfl
      · intro hempty
        rw [hempty] at haux
        cases haux
        exact ⟨rfl, h₂.symm⟩

theorem C10_backups_match_applied_witness :
    apply_changes ⟨[], [], none⟩ ⟨[⟨"m.txt", "m\nn\n"⟩, ⟨"n.txt", "n\no\n"⟩]⟩
        [("m.txt", "m\n"), ("n.txt", "n\n")] =
      some (⟨[("m.txt", 1), ("n.txt", 1)], [], 2, ["m.txt.apr.bak", "n.txt.apr.bak"]⟩,
            [("m.txt.apr.bak", "m\n"), ("m.txt", "m\nn\n"),
             ("n.txt.apr.bak", "n\n"), ("n.txt", "n\no\n")]) ∧
    ((⟨[("m.txt", 1), ("n.txt", 1)], [], 2, ["m.txt.apr.bak", "n.txt.apr.bak"]⟩ :
        ApplyResult).backups =
      ((⟨[("m.txt", 1), ("n.txt", 1)], [], 2, ["m.txt.apr.bak", "n.txt.apr.bak"]⟩ :
        ApplyResult).applied.map (fun e => bakPath e.1)) ∧
      ((⟨[⟨"m.txt", "m\nn\n"⟩, ⟨"n.txt", "n\no\n"⟩]⟩ : Patch).changes = [] →
        (⟨[("m.txt", 1), ("n.txt", 1)], [], 2, ["m.txt.apr.bak", "n.txt.apr.bak"]⟩ :
          ApplyResult) = ⟨[], [], 0, []⟩ ∧
        ([("m.txt.apr.bak", "m\n"), ("m.txt", "m\nn\n"),
          ("n.txt.apr.bak", "n\n"), ("n.txt", "n\no\n")] : FS) =
          [("m.txt", "m\n"), ("n.txt", "n\n")])) :=
  ⟨by decide,
   C10_backups_match_applied ⟨[], [], none⟩ ⟨[⟨"m.txt", "m\nn\n"⟩, ⟨"n.txt", "n\no\n"⟩]⟩
     [("m.txt", "m\n"), ("n.txt", "n\n")]
     ⟨[("m.txt", 1), ("n.txt", 1)], [], 2, ["m.txt.apr.bak", "n.txt.apr.bak"]⟩
     [("m.txt.apr.bak", "m\n"), ("m.txt", "m\nn\n"),
      ("n.txt.apr.bak", "n\n"), ("n.txt", "n\no\n")] (by decide)⟩

/-- C3 (counterexample): with a budget of 1 line, a changeSet naming
`d.txt` twice gets its first change applied (1 changed line) and its
second rejected for exceeding the budget, so the path `d.txt` appears in
BOTH the applied and the rejected lists, contradicting "never both". -/
theorem C3_counterexample :
    (apply_changes ⟨[], [], some 1⟩
        ⟨[⟨"d.txt", "d\nx\n"⟩, ⟨"d.txt", "d\nx\ny\nz\n"⟩]⟩ [("d.txt", "d\n")]).map
      (fun r => (r.1.applied.map Prod.fst, r.1.rejected.map Prod.fst)) =
      some (["d.txt"], ["d.txt"]) := by decide

/-- C3 (amended): after a successful `apply_changes`, every change
contributes exactly one entry across the two lists: for every path, the
applied-entry count plus the rejected-entry count equals the number of
changes whose path resolves to it.  In particular, when the changeSet's
resolved paths are pairwise distinct, each path lands in exactly one of
the two lists — never both, never neither; a changeSet that repeats a path
can place it in both. -/
theorem C3_each_change_one_entry (cfg : Cfg) (patch : Patch) (fs : FS)
    (r : ApplyResult) (fs₁ : FS)
    (h : apply_changes cfg patch fs = some (r, fs₁)) (p : String) :
    (r.applied.map Prod.fst).count p + (r.rejected.map Prod.fst).count p =
      (patch.changes.filterMap (fun c => resolveRel c.path)).count p ∧
    ((patch.changes.filterMap (fun c => resolveRel c.path)).Nodup →
      ¬(p ∈ r.applied.map Prod.fst ∧ p ∈ r.rejected.map Prod.fst)) := by
  unfold apply_changes at h
  cases haux : applyChangesAux cfg (some ⟨[], [], [], 0, fs⟩) patch.changes with
  | none => rw [haux] at h; cases h
  | some st₁ =>
      rw [haux] at h
      simp only [Option.map_some', Option.some.injEq] at h
      obtain ⟨h₁, _⟩ := Prod.mk.injEq .. ▸ h
      subst h₁
      have hcount := applyAux_count cfg patch.changes _ st₁ haux p
      simp only [List.map_nil, List.count_nil, Nat.zero_add] at hcount
      refine ⟨hcount, ?_⟩
      intro hnd ⟨hpa, hpr⟩
      have h1 : 0 < (st₁.applied.map Prod.fst).count p := List.count_pos_iff.mpr hpa
      have h2 : 0 < (st₁.rejected.map Prod.fst).count p := List.count_pos_iff.mpr hpr
      have h3 := (List.nodup_iff_count_le_one.mp hnd) p
      omega

theorem C3_each_change_one_entry_witness :
    apply_changes ⟨[], [], none⟩ ⟨[⟨"f.txt", "f\ng\n"⟩]⟩ [("f.txt", "f\n")] =
      some (⟨[("f.txt", 1)], [], 1, ["f.txt.apr.bak"]⟩,
            [("f.txt.apr.bak", "f\n"), ("f.txt", "f\ng\n")]) ∧
    (((⟨[("f.txt", 1)], [], 1, ["f.txt.apr.bak"]⟩ : ApplyResult).applied.map
          Prod.fst).count "f.txt" +
       ((⟨[("f.txt", 1)], [], 1, ["f.txt.apr.bak"]⟩ : ApplyResult).rejected.map
          Prod.fst).count "f.txt" =
      ((⟨[⟨"f.txt", "f\ng\n"⟩]⟩ : Patch).changes.filterMap
          (fun c => resolveRel c.path)).count "f.txt" ∧
     (((⟨[⟨"f.txt", "f\ng\n"⟩]⟩ : Patch).changes.filterMap
          (fun c => resolveRel c.path)).Nodup →
       ¬("f.txt" ∈ (⟨[("f.txt", 1)], [], 1, ["f.txt.apr.bak"]⟩ : ApplyResult).applied.map
            Prod.fst ∧
         "f.txt" ∈ (⟨[("f.txt", 1)], [], 1, ["f.txt.apr.bak"]⟩ : ApplyResult).rejected.map
            Prod.fst))) :=
  ⟨by decide,
   C3_each_change_one_entry ⟨[], [], none⟩ ⟨[⟨"f.txt", "f\ng\n"⟩]⟩ [("f.txt", "f\n")]
     ⟨[("f.txt", 1)], [], 1, ["f.txt.apr.bak"]⟩
     [("f.txt.apr.bak", "f\n"), ("f.txt", "f\ng\n")] (by decide) "f.txt"⟩

/-- C5 (counterexample): a changeSet that applies to `e.txt` twice creates
a snapshot TWICE for the same file (the backups list records the same
backup path twice), and the persisted backup afterwards pairs the file's
content just before the SECOND mutation (`"e\nx\n"`), not its pre-apply
content (`"e\n"`) — refuting "created exactly once per file, immediately
before that file's first mutation in the run". -/
theorem C5_counterexample :
    (apply_changes ⟨[], [], none⟩ ⟨[⟨"e.txt", "e\nx\n"⟩, ⟨"e.txt", "e\nx\ny\n"⟩]⟩
        [("e.txt", "e\n")]).map
      (fun r => (r.1.backups, fsRead r.2 (bakPath "e.txt"))) =
      some (["e.txt.apr.bak", "e.txt.apr.bak"], some "e\nx\n") := by decide

/-- C5 (amended): within one `apply_changes` invocation, a backup is
written immediately before EVERY mutation (one backup, recorded in order,
per applied change); when the changeSet's resolved paths are pairwise
distinct and none of them is the backup path of another, this is exactly
once per file, and the persisted snapshot pairs the file's pre-apply
content with its backup location (no file is overwritten before its
snapshot is persisted). -/
theorem C5_snapshot_per_applied_change (cfg : Cfg) (patch : Patch) (fs : FS)
    (r : ApplyResult) (fs₁ : FS)
    (h : apply_changes cfg patch fs = some (r, fs₁))
    (hnd : (patch.changes.filterMap (fun c => resolveRel c.path)).Nodup)
    (hnb : ∀ p ∈ patch.changes.filterMap (fun c => resolveRel c.path),
           ∀ q ∈ patch.changes.filterMap (fun c => resolveRel c.path), p ≠ bakPath q) :
    r.backups = r.applied.map (fun e => bakPath e.1) ∧
    (r.applied.map Prod.fst).Nodup ∧
    ∀ p ∈ r.applied.map Prod.fst, fsRead fs₁ (bakPath p) = fsRead fs p := by
  unfold apply_changes at h
  cases haux : applyChangesAux cfg (some ⟨[], [], [], 0, fs⟩) patch.changes with
  | none => rw [haux] at h; cases h
  | some st₁ =>
      rw [haux] at h
      simp only [Option.map_some', Option.some.injEq] at h
      obtain ⟨h₁, h₂⟩ := Prod.mk.injEq .. ▸ h
      subst h₁
      refine ⟨applyAux_backups_map cfg patch.changes _ st₁ haux rfl, ?_, ?_⟩
      · dsimp only
        rw [List.nodup_iff_count_le_one]
        intro q
        have hcount := applyAux_count cfg patch.changes _ st₁ haux q
        simp only [List.map_nil, List.count_nil, Nat.zero_add] at hcount
        have h3 := (List.nodup_iff_count_le_one.mp hnd) q
        omega
      · intro p hp
        have hmain := applyAux_backup_content cfg patch.changes ⟨[], [], [], 0, fs⟩ st₁ haux
          (by intro p hp; simp at hp)
          hnd
          (by intro p q hp hq
              rcases hp with hp | hp
              · simp at hp
              · rcases hq with hq | hq
                · simp at hq
                · exact hnb p hp q hq)
        have := hmain.2 p hp (by simp)
        rw [← h₂]
        exact this

theorem C5_snapshot_per_applied_change_witness :
    (apply_changes ⟨[], [], none⟩ ⟨[⟨"g.txt", "g\nh\n"⟩]⟩ [("g.txt", "g\n")] =
       some (⟨[("g.txt", 1)], [], 1, ["g.txt.apr.bak"]⟩,
             [("g.txt.apr.bak", "g\n"), ("g.txt", "g\nh\n")]) ∧
     ((⟨[⟨"g.txt", "g\nh\n"⟩]⟩ : Patch).changes.filterMap
        (fun c => resolveRel c.path)).Nodup ∧
     (∀ p ∈ (⟨[⟨"g.txt", "g\nh\n"⟩]⟩ : Patch).changes.filterMap
          (fun c => resolveRel c.path),
        ∀ q ∈ (⟨[⟨"g.txt", "g\nh\n"⟩]⟩ : Patch).changes.filterMap
          (fun c => resolveRel c.path), p ≠ bakPath q)) ∧
    ((⟨[("g.txt", 1)], [], 1, ["g.txt.apr.bak"]⟩ : ApplyResult).backups =
       (⟨[("g.txt", 1)], [], 1, ["g.txt.apr.bak"]⟩ : ApplyResult).applied.map
         (fun e => bakPath e.1) ∧
     ((⟨[("g.txt", 1)], [], 1, ["g.txt.apr.bak"]⟩ : ApplyResult).applied.map
        Prod.fst).Nodup ∧
     ∀ p ∈ (⟨[("g.txt", 1)], [], 1, ["g.txt.apr.bak"]⟩ : ApplyResult).applied.map
        Prod.fst,
       fsRead [("g.txt.apr.bak", "g\n"), ("g.txt", "g\nh\n")] (bakPath p) =
         fsRead [("g.txt", "g\n")] p) :=
  ⟨⟨by decide, by decide, by decide⟩,
   C5_snapshot_per_applied_change ⟨[], [], none⟩ ⟨[⟨"g.txt", "g\nh\n"⟩]⟩
     [("g.txt", "g\n")] ⟨[("g.txt", 1)], [], 1, ["g.txt.apr.bak"]⟩
     [("g.txt.apr.bak", "g\n"), ("g.txt", "g\nh\n")]
     (by decide) (by decide) (by decide)⟩

/-- C7 (counterexample): the changed-line metric is not symmetric.  For
`a = "a\nb\na\n"` and `b = "b\nx\na\n"`, `ndiff(a, b)` synchronizes on
the lone match `a\n` ↔ the final `a\n` (two insertions before it, two
deletions after it: 4), while `ndiff(b, a)` finds two matches (`b\n` and
`a\n`) and marks only one insertion and one deletion (2). -/
theorem C7_symmetry_counterexample :
    count_change_lines "a\nb\na\n" "b\nx\na\n" = 4 ∧
    count_change_lines "b\nx\na\n" "a\nb\na\n" = 2 :=
  ⟨by decide, by decide⟩

/-! ## The identity `count_change_lines a a = 0`

For identical sequences the dynamic-programming phase of
`find_longest_match` can only ever record a best block that lies on the
diagonal (an off-diagonal chain ending at column `j` is bounded by the
diagonal chain ending at row/column `j`, which was recorded first), and
the extension loops then grow a diagonal block to the whole range, because
every pair of positions agrees and the line-level junk predicate is
constantly false.  Hence the matching blocks collapse to one `equal`
opcode and no `+`/`-` line is emitted.  The following development makes
this precise. -/

/-- The length of the maximal run of non-popular positions ending at `j`
(cut off below `lo`): the exact value of the diagonal chain of the DP at
column `j`, and an upper bound for every chain ending at column `j`. -/
def nprL (L : List String) (lo : Nat) : Nat → Nat
  | 0 =>
      if lo = 0 && !(isPopular (fun _ => false) L (L.getD 0 default)) then 1 else 0
  | j+1 =>
      if j+1 < lo || isPopular (fun _ => false) L (L.getD (j+1) default) then 0
      else if j+1 = lo then 1 else nprL L lo j + 1

theorem nprL_zero_of_lt {L : List String} {lo j : Nat} (h : j < lo) :
    nprL L lo j = 0 := by
  cases j with
  | zero =>
      simp only [nprL]
      rw [decide_eq_false (by omega : ¬ lo = 0)]
      simp
  | succ j =>
      simp only [nprL]
      rw [decide_eq_true h]
      simp

theorem nprL_zero_of_pop {L : List String} {lo j : Nat}
    (h : isPopular (fun _ => false) L (L.getD j default) = true) :
    nprL L lo j = 0 := by
  cases j with
  | zero => simp only [nprL]; rw [h]; simp
  | succ j => simp only [nprL]; rw [h]; simp

theorem nprL_lo {L : List String} {lo : Nat}
    (h : isPopular (fun _ => false) L (L.getD lo default) = false) :
    nprL L lo lo = 1 := by
  cases lo with
  | zero => simp only [nprL]; rw [h]; simp
  | succ j => simp only [nprL]; rw [h]; simp

theorem nprL_succ {L : List String} {lo j : Nat} (hj : lo < j)
    (h : isPopular (fun _ => false) L (L.getD j default) = false) :
    nprL L lo j = nprL L lo (j - 1) + 1 := by
  cases j with
  | zero => omega
  | succ j =>
      simp only [nprL]
      rw [h, decide_eq_false (by omega : ¬ j + 1 < lo)]
      simp only [Bool.or_false, Bool.false_eq_true, if_false]
      rw [if_neg (by omega : ¬ j + 1 = lo), Nat.add_sub_cancel]

theorem nprL_le_sub {L : List String} (lo : Nat) : ∀ j, nprL L lo j ≤ j + 1 - lo := by
  intro j
  induction j with
  | zero =>
      simp only [nprL]
      split
      · rename_i hcond
        simp only [Bool.and_eq_true, decide_eq_true_eq] at hcond
        omega
      · omega
  | succ j ih =>
      simp only [nprL]
      split
      · omega
      · rename_i h₁
        simp only [Bool.or_eq_true, decide_eq_true_eq, not_or] at h₁
        split
        · omega
        · omega

theorem mem_positionsOf {α : Type} [DecidableEq α] [Inhabited α]
    {b : List α} {x : α} {j : Nat} :
    j ∈ positionsOf b x ↔ j < b.length ∧ b.getD j default = x := by
  simp [positionsOf, List.mem_filter, List.mem_range]

theorem positionsOf_sorted {α : Type} [DecidableEq α] [Inhabited α]
    (b : List α) (x : α) : (positionsOf b x).Pairwise (· < ·) :=
  List.Pairwise.filter _ (List.pairwise_lt_range _)

theorem lookupJ2_nil (j : Nat) : lookupJ2 [] j = 0 := rfl

theorem lookupJ2_map (f : Nat → Nat) :
    ∀ (js : List Nat) (j : Nat), js.Nodup →
    lookupJ2 (js.map (fun j => (j, f j))) j = if j ∈ js then f j else 0 := by
  intro js
  induction js with
  | nil => intro j _; simp [lookupJ2, List.find?]
  | cons a rest ih =>
      intro j hnd
      by_cases hja : a = j
      · subst hja
        simp [lookupJ2, List.find?]
      · have hne : (a == j) = false := beq_eq_false_iff_ne.mpr hja
        have := ih j (List.Nodup.of_cons hnd)
        simp only [lookupJ2, List.map_cons, List.find?, hne] at this ⊢
        rw [this]
        by_cases hmem : j ∈ rest
        · rw [if_pos hmem, if_pos (List.mem_cons_of_mem _ hmem)]
        · rw [if_neg hmem, if_neg]
          simp only [List.mem_cons, not_or]
          exact ⟨fun h => hja h.symm, hmem⟩

/-- The column value computed by `flmColStep` from the previous row. -/
def colVal (prev : List (Nat × Nat)) (j : Nat) : Nat :=
  (if j = 0 then 0 else lookupJ2 prev (j - 1)) + 1

theorem flmColStep_fst (prev : List (Nat × Nat)) (i : Nat)
    (st : List (Nat × Nat) × Nat × Nat × Nat) (j : Nat) :
    (flmColStep prev i st j).1 = st.1 ++ [(j, colVal prev j)] := by
  unfold flmColStep colVal
  dsimp only
  split <;> (split <;> rfl)

theorem flmFold_fst (prev : List (Nat × Nat)) (i : Nat) :
    ∀ (js : List Nat) (st : List (Nat × Nat) × Nat × Nat × Nat),
    (js.foldl (flmColStep prev i) st).1 =
      st.1 ++ js.map (fun j => (j, colVal prev j)) := by
  intro js
  induction js with
  | nil => intro st; simp
  | cons j rest ih =>
      intro st
      rw [List.foldl_cons, ih, flmColStep_fst]
      simp

theorem identity_js_facts (L : List String) (lo hi i : Nat) :
    ∀ j ∈ (b2jGet (fun _ => false) L (L.getD i default)).filter
        (fun j => decide (lo ≤ j) && decide (j < hi)),
      lo ≤ j ∧ j < hi ∧ j < L.length ∧ L.getD j default = L.getD i default ∧
      isPopular (fun _ => false) L (L.getD i default) = false := by
  intro j hj
  rw [List.mem_filter] at hj
  obtain ⟨hmem, hbounds⟩ := hj
  simp only [Bool.and_eq_true, decide_eq_true_eq] at hbounds
  unfold b2jGet at hmem
  split at hmem
  · cases hmem
  · rename_i hcond
    simp only [Bool.false_or, Bool.not_eq_true] at hcond
    have hpos := mem_positionsOf.mp hmem
    exact ⟨hbounds.1, hbounds.2, hpos.1, hpos.2, by simpa using hcond⟩

theorem identity_js_sorted (L : List String) (lo hi i : Nat) :
    ((b2jGet (fun _ => false) L (L.getD i default)).filter
        (fun j => decide (lo ≤ j) && decide (j < hi))).Pairwise (· < ·) := by
  refine List.Pairwise.filter _ ?_
  unfold b2jGet
  split
  · exact List.Pairwise.nil
  · exact positionsOf_sorted _ _

theorem identity_i_mem (L : List String) (lo hi i : Nat) (hlo : lo ≤ i) (hihi : i < hi)
    (hlen : i < L.length)
    (hpop : isPopular (fun _ => false) L (L.getD i default) = false) :
    i ∈ (b2jGet (fun _ => false) L (L.getD i default)).filter
        (fun j => decide (lo ≤ j) && decide (j < hi)) := by
  rw [List.mem_filter]
  constructor
  · unfold b2jGet
    rw [if_neg (by simp only []; rw [Bool.false_or, hpop]; simp)]
    exact mem_positionsOf.mpr ⟨hlen, rfl⟩
  · simp [hlo, hihi]

theorem identity_js_pop (L : List String) (lo hi i : Nat)
    (hpop : isPopular (fun _ => false) L (L.getD i default) = true) :
    (b2jGet (fun _ => false) L (L.getD i default)).filter
        (fun j => decide (lo ≤ j) && decide (j < hi)) = [] := by
  unfold b2jGet
  rw [if_pos (by simp only []; rw [Bool.false_or, hpop])]
  rfl

/-- The inner (column) fold of a row keeps the best block diagonal and in
bounds: an update at a column `j < i` is impossible because its chain is
dominated by a previously recorded diagonal chain, an update at `j > i` is
impossible because column `i` (processed earlier, the list being sorted)
already pushed the best size to `nprL i`, and an update at `j = i` records
a diagonal block. -/
theorem flmFold_best (L : List String) (lo i : Nat) (prev : List (Nat × Nat))
    (hEq : colVal prev i = nprL L lo i) :
    ∀ (rest : List Nat), rest.Pairwise (· < ·) →
    (∀ j ∈ rest, lo ≤ j ∧ colVal prev j ≤ nprL L lo j ∧ colVal prev j ≤ nprL L lo i) →
    ∀ (nj : List (Nat × Nat)) (d s : Nat),
      lo ≤ d → d + s ≤ i + 1 → (∀ j, lo ≤ j → j < i → nprL L lo j ≤ s) →
      (i ∈ rest ∨ nprL L lo i ≤ s) →
      ∃ d₁ s₁, (rest.foldl (flmColStep prev i) (nj, (d, d, s))).2 = (d₁, d₁, s₁) ∧
        lo ≤ d₁ ∧ d₁ + s₁ ≤ i + 1 ∧
        (∀ j, lo ≤ j → j < i → nprL L lo j ≤ s₁) ∧ nprL L lo i ≤ s₁ := by
  intro rest
  induction rest with
  | nil =>
      intro _ _ nj d s hd hds hs hdisj
      rcases hdisj with hmem | hle
      · cases hmem
      · exact ⟨d, s, rfl, hd, hds, hs, hle⟩
  | cons j tail ih =>
      intro hsorted hfacts nj d s hd hds hs hdisj
      obtain ⟨hjlo, hjle, hjlei⟩ := hfacts j (List.mem_cons_self _ _)
      have hbelow := (List.pairwise_cons.mp hsorted).1
      have hsorted' := (List.pairwise_cons.mp hsorted).2
      have hfacts' : ∀ x ∈ tail, lo ≤ x ∧ colVal prev x ≤ nprL L lo x ∧
          colVal prev x ≤ nprL L lo i :=
        fun x hx => hfacts x (List.mem_cons_of_mem _ hx)
      rw [List.foldl_cons]
      have hstep : flmColStep prev i (nj, (d, d, s)) j =
          (nj ++ [(j, colVal prev j)],
           if s < colVal prev j then
             (i + 1 - colVal prev j, j + 1 - colVal prev j, colVal prev j)
           else (d, d, s)) := by
        unfold flmColStep colVal
        dsimp only
        split <;> split <;> rfl
      rw [hstep]
      by_cases hupd : s < colVal prev j
      · have hji : j = i := by
          by_contra hne
          rcases hdisj with hmem | hle
          · rcases List.mem_cons.mp hmem with heq | hmem'
            · exact hne heq.symm
            · have hji' : j < i := hbelow i hmem'
              have := hs j hjlo hji'
              omega
          · omega
        subst hji
        rw [if_pos hupd]
        have hkle : nprL L lo j ≤ j + 1 - lo := nprL_le_sub lo j
        exact ih hsorted' hfacts' (nj ++ [(j, colVal prev j)])
          (j + 1 - colVal prev j) (colVal prev j)
          (by rw [hEq]; omega) (by rw [hEq]; omega)
          (fun x hxlo hxj => by have := hs x hxlo hxj; omega)
          (Or.inr hEq.ge)
      · rw [if_neg hupd]
        have hdisj' : i ∈ tail ∨ nprL L lo i ≤ s := by
          rcases hdisj with hmem | hle
          · rcases List.mem_cons.mp hmem with heq | hmem'
            · exact Or.inr (by rw [← hEq, heq]; omega)
            · exact Or.inl hmem'
          · exact Or.inr hle
        exact ih hsorted' hfacts' (nj ++ [(j, colVal prev j)]) d s hd hds hs hdisj'

/-- Processing one row of the DP preserves the invariants: the new
`j2len` values are bounded by the run lengths of their column and of the
current row, the diagonal entry is exact, and the best block stays
diagonal with every run up to the current row dominated. -/
theorem flmRow_inv (L : List String) (lo hi : Nat) (hhi : hi ≤ L.length)
    (i : Nat) (hilo : lo ≤ i) (hihi : i < hi)
    (prev : List (Nat × Nat)) (bst : Nat × Nat × Nat)
    (hJ1 : ∀ j, lookupJ2 prev j ≤ nprL L lo j)
    (hJ2 : ∀ j, lookupJ2 prev j ≤ (if lo < i then nprL L lo (i - 1) else 0))
    (hJ3 : lo < i → lookupJ2 prev (i - 1) = nprL L lo (i - 1))
    (hB : ∃ d s, bst = (d, d, s) ∧ lo ≤ d ∧ d + s ≤ i ∧
          ∀ j, lo ≤ j → j < i → nprL L lo j ≤ s) :
    (∀ j, lookupJ2 (flmRowStep L L (fun _ => false) lo hi (prev, bst) i).1 j ≤
        nprL L lo j) ∧
    (∀ j, lookupJ2 (flmRowStep L L (fun _ => false) lo hi (prev, bst) i).1 j ≤
        nprL L lo i) ∧
    (lookupJ2 (flmRowStep L L (fun _ => false) lo hi (prev, bst) i).1 i = nprL L lo i) ∧
    (∃ d s, (flmRowStep L L (fun _ => false) lo hi (prev, bst) i).2 = (d, d, s) ∧
        lo ≤ d ∧ d + s ≤ i + 1 ∧
        ∀ j, lo ≤ j → j < i + 1 → nprL L lo j ≤ s) := by
  obtain ⟨d, s, hbst, hd, hds, hs⟩ := hB
  subst hbst
  have hnpr_pos : isPopular (fun _ => false) L (L.getD i default) = false →
      1 ≤ nprL L lo i := by
    intro hpop
    by_cases hloi : lo = i
    · subst hloi; rw [nprL_lo hpop]
    · rw [nprL_succ (by omega) hpop]; omega
  have hcv_le : ∀ j, lo ≤ j → L.getD j default = L.getD i default →
      isPopular (fun _ => false) L (L.getD i default) = false →
      colVal prev j ≤ nprL L lo j := by
    intro j hjlo hjeq hpop
    have hpopj : isPopular (fun _ => false) L (L.getD j default) = false := by
      rw [hjeq]; exact hpop
    unfold colVal
    by_cases hj0 : j = 0
    · subst hj0
      have hlo0 : lo = 0 := by omega
      subst hlo0
      rw [if_pos rfl, nprL_lo hpopj]
    · rw [if_neg hj0]
      by_cases hjlo' : j = lo
      · have h1 := hJ1 (j - 1)
        have h2 : nprL L lo (j - 1) = 0 := nprL_zero_of_lt (by omega)
        have h3 : nprL L lo j = 1 := by
          rw [hjlo'] at hpopj ⊢
          exact nprL_lo hpopj
        omega
      · have h1 := hJ1 (j - 1)
        have h2 : nprL L lo j = nprL L lo (j - 1) + 1 := nprL_succ (by omega) hpopj
        omega
  have hcv_le_i : ∀ j,
      isPopular (fun _ => false) L (L.getD i default) = false →
      colVal prev j ≤ nprL L lo i := by
    intro j hpop
    unfold colVal
    by_cases hloi : lo < i
    · have h1 := hJ2 (j - 1)
      rw [if_pos hloi] at h1
      have h2 : nprL L lo i = nprL L lo (i - 1) + 1 := nprL_succ hloi hpop
      by_cases hj0 : j = 0
      · rw [if_pos hj0]; omega
      · rw [if_neg hj0]; omega
    · have hloi' : lo = i := by omega
      have h2 : nprL L lo i = 1 := by rw [← hloi'] at hpop ⊢; exact nprL_lo hpop
      have h1 := hJ2 (j - 1)
      rw [if_neg hloi] at h1
      by_cases hj0 : j = 0
      · rw [if_pos hj0]; omega
      · rw [if_neg hj0]; omega
  have hEq_i : isPopular (fun _ => false) L (L.getD i default) = false →
      colVal prev i = nprL L lo i := by
    intro hpop
    unfold colVal
    by_cases hi0 : i = 0
    · subst hi0
      have hlo0 : lo = 0 := by omega
      subst hlo0
      rw [if_pos rfl, nprL_lo hpop]
    · rw [if_neg hi0]
      by_cases hloi : lo < i
      · rw [hJ3 hloi, ← nprL_succ hloi hpop]
      · have hloi' : lo = i := by omega
        have h1 := hJ1 (i - 1)
        have h2 : nprL L lo (i - 1) = 0 := nprL_zero_of_lt (by omega)
        have h3 : lookupJ2 prev (i - 1) = 0 := by omega
        rw [h3]
        rw [← hloi'] at hpop ⊢
        rw [nprL_lo hpop]
  by_cases hpop : isPopular (fun _ => false) L (L.getD i default) = true
  · -- popular row: no columns are processed
    have hjs := identity_js_pop L lo hi i hpop
    unfold flmRowStep
    dsimp only
    rw [hjs]
    simp only [List.foldl_nil]
    refine ⟨?_, ?_, ?_, d, s, rfl, hd, by omega, ?_⟩
    · intro j; rw [lookupJ2_nil]; omega
    · intro j; rw [lookupJ2_nil]; omega
    · rw [lookupJ2_nil, nprL_zero_of_pop hpop]
    · intro j hjlo hji
      by_cases hji' : j < i
      · exact hs j hjlo hji'
      · have : j = i := by omega
        rw [this, nprL_zero_of_pop hpop]
        omega
  · rw [Bool.not_eq_true] at hpop
    have hfacts := identity_js_facts L lo hi i
    have hsorted := identity_js_sorted L lo hi i
    have hnodup : ((b2jGet (fun _ => false) L (L.getD i default)).filter
        (fun j => decide (lo ≤ j) && decide (j < hi))).Nodup :=
      hsorted.imp (fun h => Nat.ne_of_lt h)
    have himem := identity_i_mem L lo hi i hilo hihi (by omega) hpop
    unfold flmRowStep
    dsimp only
    have hfst := flmFold_fst prev i
      ((b2jGet (fun _ => false) L (L.getD i default)).filter
        (fun j => decide (lo ≤ j) && decide (j < hi))) ([], (d, d, s))
    have hlook : ∀ j, lookupJ2
        (((b2jGet (fun _ => false) L (L.getD i default)).filter
          (fun j => decide (lo ≤ j) && decide (j < hi))).foldl
            (flmColStep prev i) ([], (d, d, s))).1 j =
        if j ∈ (b2jGet (fun _ => false) L (L.getD i default)).filter
            (fun j => decide (lo ≤ j) && decide (j < hi)) then colVal prev j else 0 := by
      intro j
      rw [hfst]
      simp only [List.nil_append]
      exact lookupJ2_map (colVal prev) _ j hnodup
    refine ⟨?_, ?_, ?_, ?_⟩
    · intro j
      rw [hlook j]
      split
      · rename_i hmem
        obtain ⟨h1, _, _, h4, _⟩ := hfacts j hmem
        exact hcv_le j h1 h4 hpop
      · omega
    · intro j
      rw [hlook j]
      split
      · exact hcv_le_i j hpop
      · omega
    · rw [hlook i, if_pos himem]
      exact hEq_i hpop
    · obtain ⟨d₁, s₁, hout, hd₁, hds₁, hs₁, hsi⟩ :=
        flmFold_best L lo i prev (hEq_i hpop) _ hsorted
          (fun j hj => by
            obtain ⟨h1, _, _, h4, _⟩ := hfacts j hj
            exact ⟨h1, hcv_le j h1 h4 hpop, hcv_le_i j hpop⟩)
          [] d s hd (by omega) hs (Or.inl himem)
      refine ⟨d₁, s₁, hout, hd₁, hds₁, ?_⟩
      intro j hjlo hji
      by_cases hji' : j < i
      · exact hs₁ j hjlo hji'
      · have : j = i := by omega
        rw [this]
        exact hsi

theorem range'_snoc (s : Nat) : ∀ n, List.range' s (n + 1) = List.range' s n ++ [s + n] := by
  intro n
  induction n generalizing s with
  | zero => rfl
  | succ n ih =>
      show s :: List.range' (s + 1) (n + 1) = (s :: List.range' (s + 1) n) ++ [s + (n + 1)]
      rw [ih (s + 1)]
      simp [Nat.add_assoc, Nat.add_comm 1 n]

/-- The DP phase of `find_longest_match` on two copies of `L` over the
square range `[lo, hi)²` returns a diagonal best block within bounds. -/
theorem flmDP_identity (L : List String) (lo hi : Nat) (hlohi : lo ≤ hi)
    (hhi : hi ≤ L.length) :
    ∃ d s, flmDP L L (fun _ => false) lo hi lo hi = (d, d, s) ∧ lo ≤ d ∧ d + s ≤ hi := by
  suffices H : ∀ n, n ≤ hi - lo →
      (∀ j, lookupJ2 ((List.range' lo n).foldl (flmRowStep L L (fun _ => false) lo hi)
          ([], (lo, lo, 0))).1 j ≤ nprL L lo j) ∧
      (∀ j, lookupJ2 ((List.range' lo n).foldl (flmRowStep L L (fun _ => false) lo hi)
          ([], (lo, lo, 0))).1 j ≤ (if lo < lo + n then nprL L lo (lo + n - 1) else 0)) ∧
      (lo < lo + n → lookupJ2 ((List.range' lo n).foldl
          (flmRowStep L L (fun _ => false) lo hi) ([], (lo, lo, 0))).1 (lo + n - 1) =
          nprL L lo (lo + n - 1)) ∧
      (∃ d s, ((List.range' lo n).foldl (flmRowStep L L (fun _ => false) lo hi)
          ([], (lo, lo, 0))).2 = (d, d, s) ∧ lo ≤ d ∧ d + s ≤ lo + n ∧
        ∀ j, lo ≤ j → j < lo + n → nprL L lo j ≤ s) by
    obtain ⟨_, _, _, d, s, hout, hd, hds, _⟩ := H (hi - lo) le_rfl
    refine ⟨d, s, ?_, hd, by omega⟩
    unfold flmDP
    exact hout
  intro n
  induction n with
  | zero =>
      intro _
      refine ⟨?_, ?_, ?_, lo, 0, rfl, le_rfl, by omega, by omega⟩
      · intro j
        show lookupJ2 [] j ≤ _
        rw [lookupJ2_nil]
        omega
      · intro j
        show lookupJ2 [] j ≤ _
        rw [lookupJ2_nil]
        omega
      · intro hcon
        omega
  | succ n ih =>
      intro hn
      obtain ⟨J1, J2, J3, d, s, hout, hd, hds, hs⟩ := ih (by omega)
      rw [range'_snoc, List.foldl_append, List.foldl_cons, List.foldl_nil]
      have hrow := flmRow_inv L lo hi hhi (lo + n) (by omega) (by omega)
        ((List.range' lo n).foldl (flmRowStep L L (fun _ => false) lo hi)
          ([], (lo, lo, 0))).1
        ((List.range' lo n).foldl (flmRowStep L L (fun _ => false) lo hi)
          ([], (lo, lo, 0))).2
        J1 J2 J3 ⟨d, s, hout, hd, hds, hs⟩
      have harith : lo + (n + 1) - 1 = lo + n := by omega
      refine ⟨?_, ?_, ?_, ?_⟩
      · exact hrow.1
      · intro j
        rw [if_pos (by omega : lo < lo + (n + 1)), harith]
        exact hrow.2.1 j
      · intro _
        rw [harith]
        exact hrow.2.2.1
      · obtain ⟨d₁, s₁, hout₁, hd₁, hds₁, hs₁⟩ := hrow.2.2.2
        exact ⟨d₁, s₁, hout₁, hd₁, by omega, by
          intro j hjlo hji
          exact hs₁ j hjlo (by omega)⟩

theorem extLoF_noJunk_diag (L : List String) (lo : Nat) :
    ∀ (fuel d s : Nat), lo ≤ d → d - lo ≤ fuel →
    extLoF L L (fun _ => false) false lo lo fuel (d, d, s) = (lo, lo, s + (d - lo)) := by
  intro fuel
  induction fuel with
  | zero =>
      intro d s hld hf
      have hdlo : d = lo := by omega
      subst hdlo
      show (d, d, s) = (d, d, s + (d - d))
      simp
  | succ fuel ih =>
      intro d s hld hf
      by_cases hlt : lo < d
      · rw [extLoF, if_pos ⟨hlt, hlt, rfl, rfl⟩, ih (d - 1) (s + 1) (by omega) (by omega)]
        simp only [Prod.mk.injEq, true_and]
        omega
      · have hdlo : d = lo := by omega
        subst hdlo
        rw [extLoF, if_neg]
        · simp
        · intro hcon
          exact absurd hcon.1 (lt_irrefl d)

theorem extHiF_noJunk_diag (L : List String) (lo hi : Nat) :
    ∀ (fuel s : Nat), lo + s ≤ hi → hi - (lo + s) ≤ fuel →
    extHiF L L (fun _ => false) false hi hi fuel (lo, lo, s) = (lo, lo, hi - lo) := by
  intro fuel
  induction fuel with
  | zero =>
      intro s hs hf
      have : lo + s = hi := by omega
      show (lo, lo, s) = (lo, lo, hi - lo)
      simp only [Prod.mk.injEq, true_and]
      omega
  | succ fuel ih =>
      intro s hs hf
      by_cases hlt : lo + s < hi
      · rw [extHiF, if_pos ⟨hlt, hlt, rfl, rfl⟩, ih (s + 1) (by omega) (by omega)]
      · have : lo + s = hi := by omega
        rw [extHiF, if_neg]
        · simp only [Prod.mk.injEq, true_and]
          omega
        · intro hcon
          exact absurd hcon.1 hlt

theorem extLoF_junk_id (L : List String) (alo blo : Nat) :
    ∀ (fuel : Nat) (st : Nat × Nat × Nat),
    extLoF L L (fun _ => false) true alo blo fuel st = st := by
  intro fuel st
  obtain ⟨a, b, c⟩ := st
  cases fuel with
  | zero => rfl
  | succ fuel =>
      rw [extLoF, if_neg]
      intro hcon
      exact absurd hcon.2.2.1 (by simp)

theorem extHiF_junk_id (L : List String) (ahi bhi : Nat) :
    ∀ (fuel : Nat) (st : Nat × Nat × Nat),
    extHiF L L (fun _ => false) true ahi bhi fuel st = st := by
  intro fuel st
  obtain ⟨a, b, c⟩ := st
  cases fuel with
  | zero => rfl
  | succ fuel =>
      rw [extHiF, if_neg]
      intro hcon
      exact absurd hcon.2.2.1 (by simp)

/-- On two copies of `L`, `find_longest_match` over the square range
`[lo, hi)²` returns the whole diagonal block: the DP best is diagonal and
the (junk-free) extension loops grow it to the full range. -/
theorem flm_identity (L : List String) (lo hi : Nat) (hlohi : lo ≤ hi)
    (hhi : hi ≤ L.length) :
    findLongestMatch L L (fun _ => false) lo hi lo hi = (lo, lo, hi - lo) := by
  obtain ⟨d, s, hdp, hd, hds⟩ := flmDP_identity L lo hi hlohi hhi
  unfold findLongestMatch
  rw [hdp]
  dsimp only
  rw [extLoF_noJunk_diag L lo d d s hd (Nat.sub_le d lo)]
  rw [extHiF_noJunk_diag L lo hi hi (s + (d - lo)) (by omega) (by omega)]
  rw [extLoF_junk_id, extHiF_junk_id]

theorem mblocksF_identity (L : List String) (fuel : Nat) :
    mblocksF L L (fun _ => false) (fuel + 1) 0 L.length 0 L.length =
      if 0 < L.length then [(0, 0, L.length)] else [] := by
  rw [mblocksF, flm_identity L 0 L.length (Nat.zero_le _) le_rfl]
  dsimp only
  by_cases hn : 0 < L.length
  · rw [if_neg (by omega), if_pos hn, if_neg (by omega), if_neg (by omega)]
    simp
  · rw [if_pos (by omega), if_neg hn]

theorem mergeAdjacent_single (n : Nat) (hn : 0 < n) :
    mergeAdjacent (0, 0, 0) [(0, 0, n)] = [(0, 0, n)] := by
  rw [mergeAdjacent, if_pos ⟨rfl, rfl⟩, mergeAdjacent, if_pos (by dsimp only; omega)]
  simp

/-- On two copies of `L`, `get_matching_blocks` returns the single block
covering all of `L` (when non-empty) followed by the sentinel. -/
theorem getMatchingBlocks_identity (L : List String) :
    getMatchingBlocks L L (fun _ => false) =
      (if 0 < L.length then [(0, 0, L.length)] else []) ++
        [(L.length, L.length, 0)] := by
  unfold getMatchingBlocks
  rw [mblocksF_identity L (L.length + L.length)]
  by_cases hn : 0 < L.length
  · rw [if_pos hn]
    show mergeAdjacent (0, 0, 0) (sortTriples [(0, 0, L.length)]) ++ _ = _
    have hsort : sortTriples [(0, 0, L.length)] = [(0, 0, L.length)] := rfl
    rw [hsort, mergeAdjacent_single L.length hn]
  · rw [if_neg hn]
    show mergeAdjacent (0, 0, 0) (sortTriples []) ++ _ = _
    have hsort : sortTriples ([] : List (Nat × Nat × Nat)) = [] := rfl
    rw [hsort, mergeAdjacent, if_neg (by dsimp only; omega)]

/-- On two copies of `L`, `get_opcodes` returns a single `equal` opcode
(or nothing for empty `L`). -/
theorem getOpcodes_identity (L : List String) :
    getOpcodes L L (fun _ => false) =
      if 0 < L.length then [(OpTag.equal, 0, L.length, 0, L.length)] else [] := by
  unfold getOpcodes
  rw [getMatchingBlocks_identity]
  by_cases hn : 0 < L.length
  · rw [if_pos hn]
    show opcodesAux 0 0 [(0, 0, L.length), (L.length, L.length, 0)] = _
    rw [opcodesAux]
    dsimp only
    rw [if_neg (by omega), if_neg (by omega), if_neg (by omega), if_pos (by omega)]
    rw [opcodesAux]
    dsimp only
    rw [if_neg (by omega), if_neg (by omega), if_neg (by omega), if_neg (by omega)]
    rw [opcodesAux]
    simp [hn]
  · rw [if_neg hn, List.nil_append, opcodesAux]
    dsimp only
    rw [if_neg (by omega), if_neg (by omega), if_neg (by omega), if_neg (by omega)]
    rw [opcodesAux]
    simp [hn]

/-- On two copies of `L`, `Differ.compare` emits only context lines. -/
theorem differCompare_identity (L : List String) :
    differCompare L L = dumpTag ' ' L 0 L.length := by
  unfold differCompare
  rw [getOpcodes_identity]
  by_cases hn : 0 < L.length
  · rw [if_pos hn]
    simp [List.foldl_cons, List.foldl_nil]
  · rw [if_neg hn]
    have hz : L.length = 0 := by omega
    rw [List.foldl_nil, hz]
    rfl

/-- C7 (amended): `count_change_lines(a, a) = 0` for every text `a`, and the
count is a non-negative integer for all inputs; the symmetry half of the
original claim is refuted separately. -/
theorem C7_identity_and_nonneg (a : String) :
    count_change_lines a a = 0 ∧ ∀ b : String, 0 ≤ (count_change_lines a b : Int) := by
  constructor
  · unfold count_change_lines
    rw [differCompare_identity]
    rw [List.length_eq_zero]
    rw [List.filter_eq_nil_iff]
    intro x hx
    unfold dumpTag at hx
    obtain ⟨i, _, rfl⟩ := List.mem_map.mp hx
    simp
  · intro b
    exact Int.natCast_nonneg _

end APR
